import Mathlib

/-!
Verification of the flashcard text-to-card pipeline of mcp-server-learning.

Strings are modelled as `List Char`.  The Python source functions
(`FlashcardGenerator.create_anki_cloze_card`, `parse_text_to_cards`,
`convert_to_anki_mathjax`, `preserve_claude_latex`,
`AnkiCardManager.convert_to_anki_fields`, `upload_cards_to_anki`) are embedded
as executable Lean functions below; regex scans are embedded as the equivalent
left-to-right character scanners, with the exact leftmost-match/non-greedy
semantics of the Python regular expressions spelled out in the doc comments.
-/

namespace MCPLearning

/-- The left brace character, written via its code point so that brace glyphs
never appear inside string or character literals in this file. -/
def lbrace : Char := Char.ofNat 123

/-- The right brace character. -/
def rbrace : Char := Char.ofNat 125

/-- ASCII whitespace, as matched by the Python regex class `\s` and stripped
by `str.strip()` for the ASCII inputs in scope. -/
def isWS (c : Char) : Bool :=
  c = ' ' || c = '\t' || c = '\n' || c = '\r' || c = Char.ofNat 11 || c = Char.ofNat 12

/-- Remove trailing whitespace (the right half of Python `str.strip()`). -/
def trimRight : List Char → List Char
  | [] => []
  | c :: rest =>
    let r := trimRight rest
    if r.isEmpty && isWS c then [] else c :: r

/-- Python `str.strip()`: drop leading and trailing whitespace. -/
def trim (s : List Char) : List Char :=
  trimRight (s.dropWhile (fun c => isWS c))

/-- Boolean test that a list starts with a given pattern. -/
def isPre : List Char → List Char → Bool
  | [], _ => true
  | _ :: _, [] => false
  | p :: ps, c :: cs => p = c && isPre ps cs

/-- Boolean substring test (used to state label-freeness decidably). -/
def containsSub (pat : List Char) : List Char → Bool
  | [] => isPre pat []
  | c :: rest => isPre pat (c :: rest) || containsSub pat rest

/-- Decimal digits of a natural number, as Python `str(i)` renders cloze
ordinals. -/
def natCharsAux : Nat → Nat → List Char → List Char
  | 0, _, acc => acc
  | f + 1, n, acc =>
    if n < 10 then Nat.digitChar n :: acc
    else natCharsAux f (n / 10) (Nat.digitChar (n % 10) :: acc)

/-- Decimal rendering of a natural number. -/
def natChars (n : Nat) : List Char := natCharsAux (n + 1) n []

/-!
Cloze marker compiler, from `FlashcardGenerator.create_anki_cloze_card`
(fastmcp_flashcard_server.py lines 217-239).

The Python code runs `re.findall(r"\{\{(.*?)\}\}", text)` (no DOTALL, so `.`
excludes the newline) and then, for each match `m` with 1-based ordinal `i`,
runs `re.sub(escape(markers...), replacement, text, count=1)`, replacing the
first remaining literal occurrence of the original marker span.

`clozeScan` is the findall scan: outside a marker it looks for an opening
double brace; inside it accumulates payload characters until the first closing
double brace.  A newline aborts the current candidate (the `.` of the pattern
cannot cross it, and no match can start between the failed opening and the
newline because no closing double brace occurs there), so scanning resumes
after the newline; an unterminated candidate at end of input yields nothing.
-/

/-- The findall scan of the cloze pattern; `acc = none` is the outside state,
`acc = some payload` is the inside-a-marker state. -/
def clozeScan : Option (List Char) → List Char → List (List Char)
  | _, [] => []
  | none, [_] => []
  | none, c :: d :: rest =>
    if c = lbrace && d = lbrace then clozeScan (some []) rest
    else clozeScan none (d :: rest)
  | some _, [_] => []
  | some acc, c :: d :: rest =>
    if c = rbrace && d = rbrace then acc :: clozeScan none rest
    else if c = '\n' then clozeScan none (d :: rest)
    else clozeScan (some (acc ++ [c])) (d :: rest)

/-- A raw marker span as it occurs in the input text. -/
def wrapRaw (m : List Char) : List Char :=
  lbrace :: lbrace :: (m ++ [rbrace, rbrace])

/-- A compiled cloze deletion with ordinal `i`. -/
def wrapC (i : Nat) (m : List Char) : List Char :=
  lbrace :: lbrace :: 'c' :: (natChars i ++ ':' :: ':' :: (m ++ [rbrace, rbrace]))

/-- Replace the first literal occurrence of `pat` in a string (the effect of
`re.sub(re.escape(pat), repl, s, count=1)`).  The replacement is modelled as
literal text; Python additionally processes escape sequences in the
replacement template, which differs only when the matched payload contains a
backslash (and can raise `re.error` there) — the structured statements below
exclude backslash payloads, and the invariant statements only concern the
`\x7b\x7bcN::...\x7d\x7d` shape of inserted spans, which contains no
backslash and is unaffected. -/
def replaceFirst (pat repl : List Char) : List Char → List Char
  | [] => []
  | c :: rest =>
    if isPre pat (c :: rest) then repl ++ (c :: rest).drop pat.length
    else c :: replaceFirst pat repl rest

/-- The substitution loop of `create_anki_cloze_card`: for each findall match
in order, wrap the first remaining occurrence of its raw span. -/
def clozeApply : Nat → List (List Char) → List Char → List Char
  | _, [], t => t
  | i, m :: ms, t => clozeApply (i + 1) ms (replaceFirst (wrapRaw m) (wrapC i m) t)

/-- FlashcardGenerator.create_anki_cloze_card with the default markers: `none`
models the `ValueError("No cloze deletions found in text")` raised when the
findall scan produces no match. -/
def create_anki_cloze_card (text : List Char) : Option (List Char) :=
  let ms := clozeScan none text
  if ms.isEmpty then none else some (clozeApply 1 ms text)

example : clozeScan none (wrapRaw ['4', '2']) = [['4', '2']] := by decide

example :
    create_anki_cloze_card (wrapRaw ['4', '2']) = some (wrapC 1 ['4', '2']) := by decide

example :
    create_anki_cloze_card ('a' :: 'b' :: []) = none := by decide

/-!
LaTeX delimiter conversion to the remote (Anki MathJax) convention, from
`FlashcardGenerator.convert_to_anki_mathjax`
(fastmcp_flashcard_server.py lines 162-177):

    result = re.sub(r"\$\$([^$]+?)\$\$", r"\\[\1\\]", result)
    result = re.sub(r"\$([^$\n]+?)\$", r"\\(\1\\)", result)

Each `re.sub` replaces non-overlapping leftmost matches.  A match of the first
pattern at a position requires a double dollar, then a non-empty run of
non-dollar characters, then a double dollar; because the payload class
excludes the dollar sign, the non-greedy payload is exactly the maximal
non-dollar run and the match succeeds iff the two characters after that run
are both dollars.  `ddTry` tests for a match at the current position;
`subDDAux` is the scan, advancing one character when no match starts here
(fuel decreases once per consumed character, and the initial fuel equals the
string length, which is enough because every step consumes a character).
-/

/-- Try to match `$$([^$]+?)\$\$` at the head of the string; on success return
the payload and the rest after the match. -/
def ddTry (s : List Char) : Option (List Char × List Char) :=
  match s with
  | '$' :: '$' :: rest =>
    let p := rest.takeWhile (fun c => c ≠ '$')
    let r := rest.dropWhile (fun c => c ≠ '$')
    if p.isEmpty then none
    else
      match r with
      | '$' :: '$' :: r2 => some (p, r2)
      | _ => none
  | _ => none

/-- The display-math pass: replace each leftmost `$$...$$` match. -/
def subDDAux : Nat → List Char → List Char
  | 0, s => s
  | _ + 1, [] => []
  | f + 1, c :: t =>
    match ddTry (c :: t) with
    | some (p, r) => '\\' :: '[' :: (p ++ '\\' :: ']' :: subDDAux f r)
    | none => c :: subDDAux f t

/-- Try to match `\$([^$\n]+?)\$` at the head of the string. -/
def sdTry (s : List Char) : Option (List Char × List Char) :=
  match s with
  | '$' :: rest =>
    let p := rest.takeWhile (fun c => c ≠ '$' && c ≠ '\n')
    let r := rest.dropWhile (fun c => c ≠ '$' && c ≠ '\n')
    if p.isEmpty then none
    else
      match r with
      | '$' :: r2 => some (p, r2)
      | _ => none
  | _ => none

/-- The inline-math pass: replace each leftmost `$...$` match. -/
def subSDAux : Nat → List Char → List Char
  | 0, s => s
  | _ + 1, [] => []
  | f + 1, c :: t =>
    match sdTry (c :: t) with
    | some (p, r) => '\\' :: '(' :: (p ++ '\\' :: ')' :: subSDAux f r)
    | none => c :: subSDAux f t

/-- The display-math substitution pass over a whole string. -/
def subDD (s : List Char) : List Char := subDDAux s.length s

/-- The inline-math substitution pass over a whole string. -/
def subSD (s : List Char) : List Char := subSDAux s.length s

/-- FlashcardGenerator.convert_to_anki_mathjax: the double-dollar rewrite runs
first, then the single-dollar rewrite on its output (the empty string is
returned unchanged, as both passes are the identity on it). -/
def convert_to_anki_mathjax (text : List Char) : List Char :=
  subSD (subDD text)

/-!
FlashcardGenerator.preserve_claude_latex (lines 151-160): the only step is
`text.replace("\\$", "$")`, a left-to-right non-overlapping replacement of
the two-character sequence backslash-dollar by a dollar sign.
-/

/-- FlashcardGenerator.preserve_claude_latex. -/
def preserve_claude_latex : List Char → List Char
  | [] => []
  | [c] => [c]
  | c :: d :: rest =>
    if c = '\\' && d = '$' then '$' :: preserve_claude_latex rest
    else c :: preserve_claude_latex (d :: rest)

/-!
The front-back Q/A scan of `FlashcardGenerator.parse_text_to_cards`
(fastmcp_flashcard_server.py lines 241-304):

    re.finditer(r"Q:\s*(.*?)\s*A:\s*(.*?)(?=Q:|$)", text.strip(),
                re.DOTALL | re.IGNORECASE)

With DOTALL, the non-greedy groups make the match behave as follows: a match
starts at the first case-insensitive `Q:` label; the first group runs up to
the first subsequent `A:` label (the surrounding `\s*` only shave whitespace
already removed by the later `.strip()`); the second group runs up to the
next `Q:` label or the end of the (stripped, hence newline-free-at-end)
text, and iteration resumes at that label.  `qaScan` is that scan as a
character machine: `seekingQ = false` accumulates the front while looking for
an `A:` label, `seekingQ = true` accumulates the back while looking for a
`Q:` label.  The group values are stripped afterwards, which is exactly
`trim` of the accumulated regions.
-/

/-- The finditer scan after an initial Q-label has been consumed. -/
def qaScan : Bool → List Char → List Char → List Char → List (List Char × List Char)
  | false, [], _, _ => []
  | false, [_], _, _ => []
  | false, c :: d :: rest, facc, b =>
    if (c = 'A' || c = 'a') && d = ':' then qaScan true rest facc []
    else qaScan false (d :: rest) (facc ++ [c]) b
  | true, [], f, bacc => [(f, bacc)]
  | true, [c], f, bacc => [(f, bacc ++ [c])]
  | true, c :: d :: rest, f, bacc =>
    if (c = 'Q' || c = 'q') && d = ':' then (f, bacc) :: qaScan false rest [] []
    else qaScan true (d :: rest) f (bacc ++ [c])

/-- Skip to the first Q-label and start the scan; returns the raw (unstripped)
group pairs of all finditer matches, in order. -/
def qaTop : List Char → List (List Char × List Char)
  | [] => []
  | [_] => []
  | c :: d :: rest =>
    if (c = 'Q' || c = 'q') && d = ':' then qaScan false rest [] []
    else qaTop (d :: rest)

/-- Index of the last newline in a list, if any (the backtracked end of the
greedy `\s*` inside the section separator `\n\s*\n`). -/
def lastIdxNl (l : List Char) : Option Nat :=
  match l.reverse.findIdx? (fun c => c = '\n') with
  | some k => some (l.length - 1 - k)
  | none => none

/-- The section split `re.split(r"\n\s*\n|---", s)` of the front-back
fallback: at a newline, the separator alternative matches iff the following
whitespace run contains another newline, and greedy-with-backtracking ends the
separator at the last newline of that run; at three dashes the literal
alternative matches; otherwise the character joins the current piece.
With `dashes = false` the dash alternative is disabled, giving the cloze
split `re.split(r"\n\s*\n", s)`. -/
def splitSecAux (dashes : Bool) : Nat → List Char → List Char → List (List Char)
  | 0, acc, s => [acc.reverse ++ s]
  | _ + 1, acc, [] => [acc.reverse]
  | f + 1, acc, c :: rest =>
    if c = '\n' then
      match lastIdxNl (rest.takeWhile (fun x => isWS x)) with
      | some k => acc.reverse :: splitSecAux dashes f [] (rest.drop (k + 1))
      | none => splitSecAux dashes f (c :: acc) rest
    else if dashes && c = '-' && rest.take 2 = ['-', '-'] then
      acc.reverse :: splitSecAux dashes f [] (rest.drop 2)
    else splitSecAux dashes f (c :: acc) rest

/-- Sections of the front-back fallback split. -/
def splitSectionsFB (s : List Char) : List (List Char) :=
  splitSecAux true (s.length + 1) [] s

/-- Sections of the cloze split (blank-line runs only). -/
def splitSectionsNl (s : List Char) : List (List Char) :=
  splitSecAux false (s.length + 1) [] s

/-- Python `section.split("\n")` (always at least one piece). -/
def splitNl : List Char → List (List Char)
  | [] => [[]]
  | '\n' :: rest => [] :: splitNl rest
  | c :: rest =>
    match splitNl rest with
    | l :: ls => (c :: l) :: ls
    | [] => [[c]]

/-- Python `"\n".join(lines)`. -/
def joinNl : List (List Char) → List Char
  | [] => []
  | [l] => l
  | l :: ls => l ++ '\n' :: joinNl ls

/-- A parsed card: the dict `{"front": ..., "back": ...}` or `{"text": ...}`
appended by parse_text_to_cards. -/
inductive PCard where
  | fb (front back : List Char)
  | cloze (text : List Char)
deriving DecidableEq, Repr

/-- The card_type argument values exercised by the parser. -/
inductive CardTy where
  | frontBack
  | cloze
deriving DecidableEq, Repr

/-- FlashcardGenerator.parse_text_to_cards (lines 241-304).  The front-back
branch uses the Q/A finditer scan and falls back to the section split when the
scan finds nothing; the cloze branch splits on blank-line runs and silently
skips sections for which create_anki_cloze_card fails. -/
def parse_text_to_cards (text : List Char) (ct : CardTy) : List PCard :=
  match ct with
  | .frontBack =>
    let t0 := trim text
    let qa := qaTop t0
    if qa.isEmpty then
      (splitSectionsFB t0).filterMap (fun sec =>
        let s := trim sec
        if s.isEmpty then none
        else
          let lines := splitNl s
          if 2 ≤ lines.length then
            some (PCard.fb (preserve_claude_latex (trim (lines.headD [])))
              (preserve_claude_latex (trim (joinNl lines.tail))))
          else none)
    else
      qa.map (fun p =>
        PCard.fb (preserve_claude_latex (trim p.1)) (preserve_claude_latex (trim p.2)))
  | .cloze =>
    (splitSectionsNl (trim text)).filterMap (fun sec =>
      let s := trim sec
      if s.isEmpty then none
      else
        match create_anki_cloze_card s with
        | some t => some (PCard.cloze (preserve_claude_latex t))
        | none => none)

/-!
Field mapping, from `AnkiCardManager.convert_to_anki_fields`
(fastmcp_flashcard_server.py lines 709-746).  The remote interaction
(model-name validation, fetching the ordered field list) is abstracted: the
function below is the dict-building core, taking the resolved ordered field
names as input.  Note that in the front-back branch the Python dict literal

    fields = \x7b
        field_names[0]: card_data.get("front", ""),
        field_names[1]: card_data.get("back", "") if len(field_names) > 1 else "",
    \x7d

evaluates the key expression `field_names[1]` unconditionally (the
`len(field_names) > 1` guard is only on the value), so a one-element field
list raises IndexError; failed indexing is modelled by `none`.
-/

/-- The card payload read via `card_data.get(..., "")`. -/
structure CardData where
  front : List Char
  back : List Char
  text : List Char
deriving DecidableEq, Repr

/-- Python dict insertion: overwrite in place if the key exists, else append. -/
def dictInsert (k : String) (v : List Char) (fs : List (String × List Char)) :
    List (String × List Char) :=
  if fs.any (fun p => p.1 = k) then fs.map (fun p => if p.1 = k then (k, v) else p)
  else fs ++ [(k, v)]

/-- The fill-missing loop: every declared field name absent from the mapping
is added with an empty value. -/
def fillMissing (fns : List String) (fs : List (String × List Char)) :
    List (String × List Char) :=
  fns.foldl (fun acc fn => if acc.any (fun p => p.1 = fn) then acc else acc ++ [(fn, [])]) fs

/-- AnkiCardManager.convert_to_anki_fields, dict-building core (the `else`
branch for unknown card-type strings is not modelled; the claims only concern
the two real card types). -/
def convert_to_anki_fields (ct : CardTy) (cd : CardData) (field_names : List String) :
    Option (List (String × List Char)) :=
  match ct with
  | .frontBack =>
    match field_names.get? 0, field_names.get? 1 with
    | some k0, some k1 =>
      some (fillMissing field_names
        (dictInsert k1 (if 1 < field_names.length then cd.back else [])
          (dictInsert k0 cd.front [])))
    | _, _ => none
  | .cloze =>
    match field_names.get? 0 with
    | some k0 => some (fillMissing field_names (dictInsert k0 cd.text []))
    | none => none

/-- Dict lookup, for stating properties of the produced field mapping. -/
def dictGet (k : String) (fs : List (String × List Char)) : Option (List Char) :=
  match fs.find? (fun p => p.1 = k) with
  | some p => some p.2
  | none => none

/-!
Upload orchestration, from `AnkiCardManager.upload_cards_to_anki`
(flashcard_server.py lines 806-990), the batched revision with duplicate
detection.  The remote endpoint is abstracted as an oracle of pure functions
returning `Except String`; an `Except.error` models the corresponding Python
exception, and the catch-and-stringify formatting of messages is kept
abstract (the error string is carried through).  Setup failures
(`check_permission`, `create_deck`) are the only paths that return the bare
failure dict; everything later is folded into the report, mirroring the
`try`/`except` structure of the source.  The function additionally returns
the list of remote duplicate-check/bulk-add requests it issued, which the
source performs as side effects; this trace is how "the bulk-add call
receives the filtered chunk" is stated.
-/

/-- The per-card input dict in `cards_data`. -/
structure InCard where
  cardType : CardTy
  modelName : Option String
  content : List Char
  tags : List String
deriving DecidableEq, Repr

/-- AnkiCardManager.get_default_model_for_card_type. -/
def get_default_model_for_card_type : CardTy → String
  | .frontBack => "Basic"
  | .cloze => "Cloze"

/-- A formatted note as passed to the AnkiConnect bulk calls. -/
structure AnkiNote where
  deckName : String
  modelName : String
  fields : List (String × List Char)
  tags : List String
deriving DecidableEq, Repr

/-- The remote endpoint behaviour, one pure function per AnkiConnect action
used by the uploader.  `convertFields` abstracts `convert_to_anki_fields`
together with its remote model validation (it can fail for a card, modelling
the exception recorded as a conversion error). -/
structure AnkiOracle where
  checkPermission : Except String Unit
  createDeck : String → Except String Unit
  convertFields : List Char → CardTy → String → Except String (List (String × List Char))
  canAddNotes : List AnkiNote → Except String (List Bool)
  addNotes : List AnkiNote → Except String (List (Option Nat))
  setFlagForNotes : List Nat → Except String Unit

/-- The duplicate_policy argument ("update" and any other string take neither
branch of the policy dispatch). -/
inductive DupPolicy where
  | skip
  | addAnyway
  | other
deriving DecidableEq, Repr

/-- An entry of `processing_errors`. -/
structure UploadError where
  batch : Nat
  cardIndex : Option Nat
  message : String
deriving DecidableEq, Repr

/-- The totals dict accumulated by the uploader. -/
structure UploadReport where
  deckName : String
  totalCards : Nat
  successfulUploads : Nat
  failedUploads : Nat
  skippedDuplicates : Nat
  addedDuplicates : Nat
  processingErrors : List UploadError
  noteIds : List (Option Nat)
  batchesProcessed : Nat
deriving DecidableEq, Repr

/-- The value returned by upload_cards_to_anki: either the bare setup-failure
dict (success false, an error message, total_cards, and no per-card tallies)
or the full report dict. -/
inductive UploadResult where
  | setupFailure (error : String) (totalCards : Nat)
  | report (r : UploadReport)
deriving DecidableEq, Repr

/-- The "success" entry of the returned dict: `False` on the failure paths and
`successful_uploads > 0` on the report path. -/
def UploadResult.success : UploadResult → Bool
  | .setupFailure _ _ => false
  | .report r => decide (0 < r.successfulUploads)

/-- The "total_cards" entry of the returned dict. -/
def UploadResult.totalCardsOf : UploadResult → Nat
  | .setupFailure _ n => n
  | .report r => r.totalCards

/-- Remote requests issued by the uploader, in order. -/
inductive TraceEvent where
  | canAddCall (notes : List AnkiNote)
  | addCall (notes : List AnkiNote)
  | flagCall (noteIds : List Nat)
deriving DecidableEq, Repr

/-- The chunking `for i in range(0, len(cards_data), batch_size)` with slices
`cards_data[i : i + batch_size]` (the fuel equals the list length, enough for
any positive step). -/
def chunksAux (bs : Nat) : Nat → List α → List (List α)
  | _, [] => []
  | 0, l => [l]
  | f + 1, l => l.take bs :: chunksAux bs f (l.drop bs)

/-- Split a list into consecutive chunks of size `bs`. -/
def chunks (bs : Nat) (l : List α) : List (List α) := chunksAux bs l.length l

/-- What one chunk iteration contributes to the totals. -/
structure ChunkOutcome where
  errors : List UploadError
  succ : Nat
  failed : Nat
  skipped : Nat
  addedDup : Nat
  noteIds : List (Option Nat)
  processedInc : Nat
  trace : List TraceEvent
deriving DecidableEq, Repr

/-- The conversion loop of one chunk: notes of the successful conversions (in
order) and the conversion-error entries (indexed by absolute card index). -/
def convertChunk (o : AnkiOracle) (deck : String) (batchNum startIdx : Nat) :
    List InCard → Nat → List AnkiNote × List UploadError
  | [], _ => ([], [])
  | card :: rest, j =>
    let mn := card.modelName.getD (get_default_model_for_card_type card.cardType)
    let (notes, errs) := convertChunk o deck batchNum startIdx rest (j + 1)
    match o.convertFields card.content card.cardType mn with
    | .ok fields => (⟨deck, mn, fields, card.tags⟩ :: notes, errs)
    | .error e => (notes, ⟨batchNum, some (startIdx + j), e⟩ :: errs)

/-- One iteration of the chunk loop (flashcard_server.py lines 845-956).
With `flags = false` this is exactly the source; `flags = true` adds the
spec-modelled best-effort flag step, see upload_cards_with_flags. -/
def processChunk (o : AnkiOracle) (deck : String) (batchNum startIdx : Nat)
    (chunk : List InCard) (checkDup : Bool) (policy : DupPolicy) (flags : Bool) :
    ChunkOutcome :=
  let (ankiNotes, convErrs) := convertChunk o deck batchNum startIdx chunk 0
  if ankiNotes.isEmpty then
    ⟨convErrs, 0, convErrs.length, 0, 0, [], 0, []⟩
  else
    let dupStep :
        List AnkiNote × Nat × Nat × List UploadError × List TraceEvent :=
      match checkDup with
      | true =>
        match o.canAddNotes ankiNotes with
        | .ok canAdd =>
          match policy with
          | .skip =>
            let zipped := ankiNotes.zip canAdd
            let kept := (zipped.filter (fun p => p.2)).map (fun p => p.1)
            let skippedN := (zipped.filter (fun p => !p.2)).length
            (kept, skippedN, 0, [], [TraceEvent.canAddCall ankiNotes])
          | .addAnyway =>
            (ankiNotes, 0, (canAdd.filter (fun b => !b)).length, [],
              [TraceEvent.canAddCall ankiNotes])
          | .other => (ankiNotes, 0, 0, [], [TraceEvent.canAddCall ankiNotes])
        | .error e =>
          (ankiNotes, 0, 0, [⟨batchNum, none, "Duplicate check failed: " ++ e⟩],
            [TraceEvent.canAddCall ankiNotes])
      | false => (ankiNotes, 0, 0, [], [])
    let toAdd := dupStep.1
    let skippedN := dupStep.2.1
    let addedAnywayN := dupStep.2.2.1
    let dupErrs := dupStep.2.2.2.1
    let dupTrace := dupStep.2.2.2.2
    if toAdd.isEmpty then
      ⟨convErrs ++ dupErrs, 0, convErrs.length, 0, 0, [], 1, dupTrace⟩
    else
      match o.addNotes toAdd with
      | .ok ids =>
        let okN := (ids.filter (fun i => i.isSome)).length
        let flagTrace :=
          match flags with
          | true =>
            let created := ids.filterMap id
            if created.isEmpty then []
            else
              match o.setFlagForNotes created with
              | .ok _ => [TraceEvent.flagCall created]
              | .error _ => [TraceEvent.flagCall created]
          | false => []
        ⟨convErrs ++ dupErrs, okN, convErrs.length + (ids.length - okN),
          skippedN, addedAnywayN, ids, 1,
          dupTrace ++ [TraceEvent.addCall toAdd] ++ flagTrace⟩
      | .error e =>
        ⟨convErrs ++ dupErrs ++ [⟨batchNum, none, "Upload failed: " ++ e⟩], 0,
          convErrs.length + toAdd.length, 0, 0, [], 1,
          dupTrace ++ [TraceEvent.addCall toAdd]⟩

/-- The chunk fold accumulating the totals dict. -/
def foldChunks (o : AnkiOracle) (deck : String) (checkDup : Bool)
    (policy : DupPolicy) (bs : Nat) (flags : Bool) :
    List (List InCard) → Nat → UploadReport × List TraceEvent → UploadReport × List TraceEvent
  | [], _, acc => acc
  | chunk :: rest, k, (r, tr) =>
    let c := processChunk o deck (k + 1) (k * bs) chunk checkDup policy flags
    foldChunks o deck checkDup policy bs flags rest (k + 1)
      (⟨r.deckName, r.totalCards, r.successfulUploads + c.succ,
        r.failedUploads + c.failed, r.skippedDuplicates + c.skipped,
        r.addedDuplicates + c.addedDup, r.processingErrors ++ c.errors,
        r.noteIds ++ c.noteIds, r.batchesProcessed + c.processedInc⟩,
        tr ++ c.trace)

/-- The body shared by the source uploader and the spec-modelled flagging
variant. -/
def uploadBody (o : AnkiOracle) (cards : List InCard) (deck : String)
    (checkDup : Bool) (policy : DupPolicy) (batchSize : Nat) (flags : Bool) :
    UploadResult × List TraceEvent :=
  match o.checkPermission with
  | .error e => (.setupFailure e cards.length, [])
  | .ok _ =>
    match o.createDeck deck with
    | .error e => (.setupFailure e cards.length, [])
    | .ok _ =>
      if batchSize = 0 then
        (.setupFailure "Unexpected error: range() arg 3 must not be zero" cards.length, [])
      else
        let init : UploadReport := ⟨deck, cards.length, 0, 0, 0, 0, [], [], 0⟩
        let (r, tr) :=
          foldChunks o deck checkDup policy batchSize flags (chunks batchSize cards) 0 (init, [])
        (.report r, tr)

/-- AnkiCardManager.upload_cards_to_anki (flashcard_server.py lines 806-990),
the batched revision found in src.  A zero batch size reproduces the
`range()` ValueError caught by the outer generic handler. -/
def upload_cards_to_anki (o : AnkiOracle) (cards : List InCard) (deck : String)
    (checkDup : Bool) (policy : DupPolicy) (batchSize : Nat) :
    UploadResult × List TraceEvent :=
  uploadBody o cards deck checkDup policy batchSize false

/-- Modelled from the spec: the flag-setting post-step of the latest revision
of the uploader is not present under src (only its tests reference
`_set_card_flags` / `setSpecificValueOfCard`); following spec section 4.5 step
6, after each successful bulk add the notes actually created are flagged
best-effort, and any failure of that call is caught and ignored. -/
def upload_cards_with_flags (o : AnkiOracle) (cards : List InCard) (deck : String)
    (checkDup : Bool) (policy : DupPolicy) (batchSize : Nat) :
    UploadResult × List TraceEvent :=
  uploadBody o cards deck checkDup policy batchSize true

/-!
Structured inputs and decidable side conditions used to state the claims.
-/

/-- Substring occurrence as a proposition. -/
def occursIn (pat s : List Char) : Prop := ∃ a b, s = a ++ pat ++ b

/-- No occurrence of `pat` starts inside the region `a` of the string
`a ++ b` (occurrences may straddle the boundary, hence the context `b`). -/
def noStartIn (pat a b : List Char) : Prop :=
  ∀ k, k < a.length → isPre pat ((a ++ b).drop k) = false

/-- No brace characters (marker syntax cannot start or end inside). -/
def braceFree (s : List Char) : Bool := s.all (fun c => c ≠ lbrace && c ≠ rbrace)

/-- A well-behaved cloze payload: no braces (so the marker grammar is
unambiguous), no newline (the findall pattern cannot cross one) and no
backslash (so the Python replacement template is literal). -/
def payloadOK (s : List Char) : Bool :=
  s.all (fun c => c ≠ lbrace && c ≠ rbrace && c ≠ '\n' && c ≠ '\\')

/-- A gap followed by a raw marker span. -/
structure ClozeSeg where
  gap : List Char
  payload : List Char
deriving DecidableEq, Repr

/-- A text consisting of gaps and raw marker spans, ending with `tail`. -/
def renderRawSegs : List ClozeSeg → List Char → List Char
  | [], tail => tail
  | sg :: rest, tail => sg.gap ++ wrapRaw sg.payload ++ renderRawSegs rest tail

/-- The same text with every span compiled, ordinals counting from `k`. -/
def renderCompSegs : Nat → List ClozeSeg → List Char → List Char
  | _, [], tail => tail
  | k, sg :: rest, tail => sg.gap ++ wrapC k sg.payload ++ renderCompSegs (k + 1) rest tail

/-- The text of a compiled span without its surrounding braces (what stands
between the opening braces and the closing braces of `wrapC k m`). -/
def compName (k : Nat) (m : List Char) : List Char :=
  'c' :: (natChars k ++ ':' :: ':' :: m)

/-- No later payload may equal the braceless body `compName j mj` of an
earlier compiled span (ordinals counting from `k`): otherwise the later
substitution step finds its first occurrence inside an earlier replacement. -/
def noClash (k : Nat) (prev : List (Nat × List Char)) : List ClozeSeg → Bool
  | [] => true
  | sg :: rest =>
    prev.all (fun pr => sg.payload ≠ compName pr.1 pr.2) &&
      noClash (k + 1) ((k, sg.payload) :: prev) rest

/-- One Q/A pair of the structured front-back input: a `Q`-label (upper or
lower case), the front region, an `A`-label, the back region. -/
structure QASeg where
  qc : Char
  front : List Char
  ac : Char
  back : List Char
deriving DecidableEq, Repr

/-- Render the sequence of Q/A pairs. -/
def renderQASegs : List QASeg → List Char
  | [] => []
  | sg :: rest => sg.qc :: ':' :: (sg.front ++ sg.ac :: ':' :: (sg.back ++ renderQASegs rest))

/-- Optional trailing junk: one more Q-label whose remainder contains no
A-label, so the scan finds no further match there. -/
def renderQAJunk : Option (Char × List Char) → List Char
  | none => []
  | some (qc, z) => qc :: ':' :: z

/-- The full structured front-back input. -/
def renderQA (w0 : List Char) (segs : List QASeg) (junk : Option (Char × List Char)) :
    List Char :=
  w0 ++ renderQASegs segs ++ renderQAJunk junk

/-- No Q-label substring (either case). -/
def qLabelFree (s : List Char) : Bool :=
  !containsSub ['Q', ':'] s && !containsSub ['q', ':'] s

/-- No A-label substring (either case). -/
def aLabelFree (s : List Char) : Bool :=
  !containsSub ['A', ':'] s && !containsSub ['a', ':'] s

/-- Free of both labels. -/
def labelFree (s : List Char) : Bool := qLabelFree s && aLabelFree s

/-- A math span of the structured LaTeX input: inline `$p$` or display
`$$p$$`. -/
inductive MSpan where
  | single (p : List Char)
  | double (p : List Char)
deriving DecidableEq, Repr

/-- Render one math span. -/
def renderSpan : MSpan → List Char
  | .single p => '$' :: (p ++ ['$'])
  | .double p => '$' :: '$' :: (p ++ ['$', '$'])

/-- The structured LaTeX input: a leading gap, then spans each followed by a
gap. -/
def renderM (g0 : List Char) : List (MSpan × List Char) → List Char
  | [] => g0
  | (sp, g) :: rest => g0 ++ renderSpan sp ++ renderM g rest

/-- What convert_to_anki_mathjax is expected to produce on the structured
input: display spans become bracket form, inline spans become parenthesis
form. -/
def renderMOut (g0 : List Char) : List (MSpan × List Char) → List Char
  | [] => g0
  | (.single p, g) :: rest => g0 ++ '\\' :: '(' :: (p ++ ['\\', ')']) ++ renderMOut g rest
  | (.double p, g) :: rest => g0 ++ '\\' :: '[' :: (p ++ ['\\', ']']) ++ renderMOut g rest

/-- The structured text after the display-math pass only: display spans are
already in bracket form, inline spans still carry their dollars. -/
def renderMMid (g0 : List Char) : List (MSpan × List Char) → List Char
  | [] => g0
  | (.single p, g) :: rest => g0 ++ '$' :: (p ++ ['$']) ++ renderMMid g rest
  | (.double p, g) :: rest =>
    g0 ++ '\\' :: '[' :: (p ++ ['\\', ']']) ++ renderMMid g rest

/-- No dollar sign. -/
def dollarFree (s : List Char) : Bool := s.all (fun c => c ≠ '$')

/-- A well-formed terminated span: non-empty payload, no dollar inside, and
no newline inside an inline span. -/
def spanOK : MSpan → Bool
  | .single p => !p.isEmpty && p.all (fun c => c ≠ '$' && c ≠ '\n')
  | .double p => !p.isEmpty && dollarFree p

/-- Consecutive spans must be separated by a non-empty gap (the final gap may
be empty): with an empty gap between two spans, the closing and opening
dollars can pair up into a spurious display match, see the counterexample. -/
def sepOK : List (MSpan × List Char) → Bool
  | [] => true
  | [_] => true
  | (_, g) :: rest => !g.isEmpty && sepOK rest

/-- The note the uploader builds for a card when field conversion yields
`F content cardType model`. -/
def noteOf (deck : String) (F : List Char → CardTy → String → List (String × List Char))
    (c : InCard) : AnkiNote :=
  let mn := c.modelName.getD (get_default_model_for_card_type c.cardType)
  ⟨deck, mn, F c.content c.cardType mn, c.tags⟩

/-- A benign oracle used by the concrete witness instances: everything
succeeds, every note is addable, ids are assigned positionally. -/
def oracleHappy : AnkiOracle :=
  ⟨.ok (), fun _ => .ok (), fun _ _ _ => .ok [("Front", ['x'])],
   fun ns => .ok (ns.map (fun _ => true)),
   fun ns => .ok ((List.range ns.length).map (fun i => some (100 + i))),
   fun _ => .ok ()⟩

/-- An oracle whose duplicate check reports every note as a duplicate. -/
def oracleAllDup : AnkiOracle :=
  ⟨.ok (), fun _ => .ok (), fun _ _ _ => .ok [("Front", ['x'])],
   fun ns => .ok (ns.map (fun _ => false)),
   fun ns => .ok (ns.map (fun _ => some 7)),
   fun _ => .ok ()⟩

/-- A concrete front-back card used by witnesses. -/
def cardW : InCard := ⟨.frontBack, none, ['h', 'i'], ["t"]⟩

/-- A concrete Q/A pair used by witnesses: the structured rendering of the
text `Q: cap? A: Paris`. -/
def qaW : QASeg := ⟨'Q', [' ', 'c', 'a', 'p', '?', ' '], 'A', [' ', 'P', 'a', 'r', 'i', 's']⟩

/-!
Theorems.
-/

/-- Claim C5 (code bug): for a front-back card and a resolved one-field schema
the field mapper is claimed to return the mapping normally, with the first
field holding the front; but the Python dict literal evaluates the key
expression `field_names[1]` unconditionally, so the one-field case raises
IndexError (modelled as `none`) instead of returning the claimed mapping.  For
comparison, a three-field schema shows the claimed behaviour (first field
front, second back, the rest empty), confirming that the `len > 1` guard was
intended to make the one-field case work. -/
theorem C5_one_field_schema_crashes :
    convert_to_anki_fields .frontBack ⟨['f'], ['b'], []⟩ ["Text"] = none ∧
    convert_to_anki_fields .frontBack ⟨['f'], ['b'], []⟩ ["Front", "Back", "Extra"] =
      some [("Front", ['f']), ("Back", ['b']), ("Extra", [])] := by
  constructor
  · rfl
  · rfl

/-- Claim C2, counterexample: on the text built of the two marker spans with
payloads `a` and `c1::a`, the claim says occurrence 1 becomes its ordinal-1
wrap and occurrence 2 its ordinal-2 wrap; but the second substitution step
finds its first occurrence inside the replacement inserted by the first step,
so the first span ends up doubly wrapped and the second span is left raw. -/
theorem C2_ordinal_assignment_counterexample :
    create_anki_cloze_card (wrapRaw ['a'] ++ ' ' :: wrapRaw (compName 1 ['a'])) =
      some (wrapC 2 (compName 1 ['a']) ++ ' ' :: wrapC 1 ['a']) ∧
    wrapC 2 (compName 1 ['a']) ++ ' ' :: wrapC 1 ['a'] ≠
      wrapC 1 ['a'] ++ ' ' :: wrapC 2 (compName 1 ['a']) := by
  constructor
  · decide
  · decide

/-- Claim C8, counterexample: a span already in compiled form, here `c1::x`
wrapped (that is, the input is exactly `wrapC 1 x`), is claimed to pass
through the compiler unchanged; instead the compiler re-matches it as an
ordinary marker and rewraps it, and the compiled span does not appear in the
output at all. -/
theorem C8_compiled_span_rewrapped_counterexample :
    create_anki_cloze_card (wrapC 1 ['x']) = some (wrapC 1 (compName 1 ['x'])) ∧
    containsSub (wrapC 1 ['x']) (wrapC 1 (compName 1 ['x'])) = false := by
  constructor
  · decide
  · decide

/-- Claim C7, counterexample: the input consisting of a Q-label immediately
followed by an A-label and an answer parses, on the Q/A path, to a front-back
card whose front is empty, violating the claimed invariant that a front-back
card always has a non-empty front. -/
theorem C7_empty_front_counterexample :
    parse_text_to_cards ['Q', ':', ' ', 'A', ':', ' ', '4'] .frontBack =
      [PCard.fb [] ['4']] := by
  decide

/-- Claim C6, counterexample: in the input `$a$$b$$$c$$`, every dollar sign
belongs to a well-formed terminated span under the left-to-right reading
(inline `$a$`, inline `$b$`, display `$$c$$`, with empty gaps); yet the
display pass pairs the closer of `$a$` with the opener of `$b$` into a
spurious `$$b$$` match, and the output ends with a bare unescaped `$$`. -/
theorem C6_adjacent_spans_counterexample :
    convert_to_anki_mathjax
        (renderM [] [(.single ['a'], []), (.single ['b'], []), (.double ['c'], [])]) =
      ['\\', '(', 'a', '\\', '[', 'b', '\\', ']', '\\', ')', 'c', '$', '$'] ∧
    '$' ∈ convert_to_anki_mathjax
        (renderM [] [(.single ['a'], []), (.single ['b'], []), (.double ['c'], [])]) := by
  constructor
  · decide
  · decide

/-- Claim C4, counterexample: one card, duplicate check reports it as not
addable, policy skip.  The note is removed (the trace shows the duplicate
check was called and no bulk-add call was issued), so one note was skipped,
but the returned `skipped_duplicates` is 0, because the source only adds the
per-chunk skip count to the totals inside the branch taken when the filtered
chunk is non-empty and its bulk add succeeds. -/
theorem C4_skipped_count_lost_counterexample :
    (upload_cards_to_anki oracleAllDup [cardW] "D" true .skip 10).1 =
      .report ⟨"D", 1, 0, 0, 0, 0, [], [], 1⟩ ∧
    (upload_cards_to_anki oracleAllDup [cardW] "D" true .skip 10).2 =
      [TraceEvent.canAddCall [⟨"D", "Basic", [("Front", ['x'])], ["t"]⟩]] := by
  constructor
  · rfl
  · rfl

/-!
Chunk-fold bookkeeping lemmas.
-/

theorem chunksAux_map_length_sum {α : Type} (bs : Nat) :
    ∀ (f : Nat) (l : List α), ((chunksAux bs f l).map List.length).sum = l.length := by
  intro f
  induction f with
  | zero =>
    intro l
    cases l with
    | nil => simp [chunksAux]
    | cons a l => simp [chunksAux]
  | succ f ih =>
    intro l
    cases l with
    | nil => simp [chunksAux]
    | cons a l =>
      simp only [chunksAux, List.map_cons, List.sum_cons, ih]
      simp only [List.length_take, List.length_drop, List.length_cons]
      omega

theorem chunks_map_length_sum {α : Type} (bs : Nat) (l : List α) :
    ((chunks bs l).map List.length).sum = l.length :=
  chunksAux_map_length_sum bs l.length l

theorem chunksAux_ne_nil {α : Type} (bs : Nat) (hbs : 0 < bs) :
    ∀ (f : Nat) (l : List α), ∀ ch ∈ chunksAux bs f l, ch ≠ [] := by
  intro f
  induction f with
  | zero =>
    intro l ch hch
    cases l with
    | nil => simp [chunksAux] at hch
    | cons a l =>
      simp only [chunksAux, List.mem_singleton] at hch
      subst hch
      exact List.cons_ne_nil a l
  | succ f ih =>
    intro l ch hch
    cases l with
    | nil => simp [chunksAux] at hch
    | cons a l =>
      simp only [chunksAux, List.mem_cons] at hch
      rcases hch with h | h
      · subst h
        cases bs with
        | zero => omega
        | succ bs => exact by simp [List.take]
      · exact ih _ ch h

theorem chunks_ne_nil {α : Type} (bs : Nat) (hbs : 0 < bs) (l : List α) :
    ∀ ch ∈ chunks bs l, ch ≠ [] :=
  chunksAux_ne_nil bs hbs l.length l

theorem foldChunks_totalCards (o : AnkiOracle) (deck : String) (cd : Bool)
    (pol : DupPolicy) (bs : Nat) (flags : Bool) :
    ∀ (cl : List (List InCard)) (k : Nat) (r : UploadReport) (tr : List TraceEvent),
      (foldChunks o deck cd pol bs flags cl k (r, tr)).1.totalCards = r.totalCards := by
  intro cl
  induction cl with
  | nil => intro k r tr; rfl
  | cons ch rest ih => intro k r tr; exact ih (k + 1) _ _

theorem foldChunks_deckName (o : AnkiOracle) (deck : String) (cd : Bool)
    (pol : DupPolicy) (bs : Nat) (flags : Bool) :
    ∀ (cl : List (List InCard)) (k : Nat) (r : UploadReport) (tr : List TraceEvent),
      (foldChunks o deck cd pol bs flags cl k (r, tr)).1.deckName = r.deckName := by
  intro cl
  induction cl with
  | nil => intro k r tr; rfl
  | cons ch rest ih => intro k r tr; exact ih (k + 1) _ _

theorem foldChunks_succ_const (o : AnkiOracle) (deck : String) (cd : Bool)
    (pol : DupPolicy) (bs : Nat) (flags : Bool)
    (hz : ∀ (chunk : List InCard) (k : Nat),
      (processChunk o deck (k + 1) (k * bs) chunk cd pol flags).succ = 0) :
    ∀ (cl : List (List InCard)) (k : Nat) (r : UploadReport) (tr : List TraceEvent),
      (foldChunks o deck cd pol bs flags cl k (r, tr)).1.successfulUploads =
        r.successfulUploads := by
  intro cl
  induction cl with
  | nil => intro k r tr; rfl
  | cons ch rest ih =>
    intro k r tr
    simp only [foldChunks, ih (k + 1), hz ch k, Nat.add_zero]

theorem convertChunk_all_error (o : AnkiOracle) (deck : String) (bn si : Nat)
    (hconv : ∀ (content : List Char) (ct : CardTy) (mn : String),
      ∃ e, o.convertFields content ct mn = .error e) :
    ∀ (chunk : List InCard) (j : Nat), (convertChunk o deck bn si chunk j).1 = [] := by
  intro chunk
  induction chunk with
  | nil => intro j; rfl
  | cons card rest ih =>
    intro j
    obtain ⟨e, he⟩ := hconv card.content card.cardType
      (card.modelName.getD (get_default_model_for_card_type card.cardType))
    simp only [convertChunk, ih (j + 1)]
    rw [he]

theorem convertChunk_all_ok (o : AnkiOracle) (deck : String) (bn si : Nat)
    (F : List Char → CardTy → String → List (String × List Char))
    (hconv : ∀ (content : List Char) (ct : CardTy) (mn : String),
      o.convertFields content ct mn = .ok (F content ct mn)) :
    ∀ (chunk : List InCard) (j : Nat),
      convertChunk o deck bn si chunk j = (chunk.map (noteOf deck F), []) := by
  intro chunk
  induction chunk with
  | nil => intro j; rfl
  | cons card rest ih =>
    intro j
    simp only [convertChunk, ih (j + 1)]
    rw [hconv]
    rfl

theorem zip_map_false_filter {α : Type} (ns : List α) :
    (ns.zip (ns.map (fun _ => false))).filter (fun p => p.2) = [] := by
  induction ns with
  | nil => rfl
  | cons a l ih => simpa [List.zip, List.filter] using ih

theorem foldChunks_errors_ne (o : AnkiOracle) (deck : String) (cd : Bool)
    (pol : DupPolicy) (bs : Nat) (flags : Bool) :
    ∀ (cl : List (List InCard)) (k : Nat) (r : UploadReport) (tr : List TraceEvent),
      r.processingErrors ≠ [] →
      (foldChunks o deck cd pol bs flags cl k (r, tr)).1.processingErrors ≠ [] := by
  intro cl
  induction cl with
  | nil => intro k r tr h; exact h
  | cons ch rest ih =>
    intro k r tr h
    refine ih (k + 1) _ _ ?_
    simp only [ne_eq, List.append_eq_nil]
    intro hcon
    exact h hcon.1

theorem foldChunks_failed_sum (o : AnkiOracle) (deck : String) (cd : Bool)
    (pol : DupPolicy) (bs : Nat) (flags : Bool)
    (hz : ∀ (chunk : List InCard), chunk ≠ [] → ∀ (k : Nat),
      (processChunk o deck (k + 1) (k * bs) chunk cd pol flags).failed = chunk.length ∧
      (processChunk o deck (k + 1) (k * bs) chunk cd pol flags).succ = 0 ∧
      (processChunk o deck (k + 1) (k * bs) chunk cd pol flags).errors ≠ []) :
    ∀ (cl : List (List InCard)), (∀ ch ∈ cl, ch ≠ []) →
      ∀ (k : Nat) (r : UploadReport) (tr : List TraceEvent),
      (foldChunks o deck cd pol bs flags cl k (r, tr)).1.failedUploads =
        r.failedUploads + (cl.map List.length).sum ∧
      (foldChunks o deck cd pol bs flags cl k (r, tr)).1.successfulUploads =
        r.successfulUploads ∧
      (cl ≠ [] →
        (foldChunks o deck cd pol bs flags cl k (r, tr)).1.processingErrors ≠ []) := by
  intro cl
  induction cl with
  | nil =>
    intro _ k r tr
    refine ⟨by simp [foldChunks], rfl, ?_⟩
    intro h
    exact absurd rfl h
  | cons ch rest ih =>
    intro hne k r tr
    have ihne : ∀ c ∈ rest, c ≠ [] := fun c hc => hne c (List.mem_cons_of_mem ch hc)
    have ih := fun k => ih ihne k
    obtain ⟨h1, h2, h3⟩ := hz ch (hne ch (List.mem_cons_self ch rest)) k
    obtain ⟨ih1, ih2, _⟩ := ih (k + 1)
      (⟨r.deckName, r.totalCards,
        r.successfulUploads + (processChunk o deck (k + 1) (k * bs) ch cd pol flags).succ,
        r.failedUploads + (processChunk o deck (k + 1) (k * bs) ch cd pol flags).failed,
        r.skippedDuplicates + (processChunk o deck (k + 1) (k * bs) ch cd pol flags).skipped,
        r.addedDuplicates + (processChunk o deck (k + 1) (k * bs) ch cd pol flags).addedDup,
        r.processingErrors ++ (processChunk o deck (k + 1) (k * bs) ch cd pol flags).errors,
        r.noteIds ++ (processChunk o deck (k + 1) (k * bs) ch cd pol flags).noteIds,
        r.batchesProcessed +
          (processChunk o deck (k + 1) (k * bs) ch cd pol flags).processedInc⟩)
      (tr ++ (processChunk o deck (k + 1) (k * bs) ch cd pol flags).trace)
    refine ⟨?_, ?_, ?_⟩
    · simp only [foldChunks]
      rw [ih1]
      simp only [h1, List.map_cons, List.sum_cons]
      omega
    · simp only [foldChunks]
      rw [ih2]
      simp [h2]
    · intro _
      simp only [foldChunks]
      refine foldChunks_errors_ne o deck cd pol bs flags rest (k + 1) _ _ ?_
      simp only [ne_eq, List.append_eq_nil]
      intro hcon
      exact h3 hcon.2

theorem chunksAux_flatten {α : Type} (bs : Nat) :
    ∀ (f : Nat) (l : List α), (chunksAux bs f l).flatten = l := by
  intro f
  induction f with
  | zero =>
    intro l
    cases l with
    | nil => rfl
    | cons a l => simp [chunksAux]
  | succ f ih =>
    intro l
    cases l with
    | nil => rfl
    | cons a l =>
      simp only [chunksAux, List.flatten_cons, ih]
      exact List.take_append_drop bs (a :: l)

theorem chunks_flatten {α : Type} (bs : Nat) (l : List α) : (chunks bs l).flatten = l :=
  chunksAux_flatten bs l.length l

theorem zip_map_filter_true {α : Type} (p : α → Bool) :
    ∀ (l : List α),
      ((l.zip (l.map p)).filter (fun q => q.2)).map (fun q => q.1) = l.filter p := by
  intro l
  induction l with
  | nil => rfl
  | cons a l ih =>
    simp only [List.map_cons, List.zip_cons_cons, List.filter]
    cases hpa : p a with
    | false => simpa [hpa] using ih
    | true => simpa [hpa] using ih

theorem zip_map_filter_false_len {α : Type} (p : α → Bool) :
    ∀ (l : List α),
      ((l.zip (l.map p)).filter (fun q => !q.2)).length = l.countP (fun a => !(p a)) := by
  intro l
  induction l with
  | nil => rfl
  | cons a l ih =>
    simp only [List.map_cons, List.zip_cons_cons, List.countP_cons]
    cases hpa : p a with
    | false =>
      rw [List.filter_cons]
      simp [hpa, ih]
    | true =>
      rw [List.filter_cons]
      simp [hpa, ih]

theorem map_filter_not_len {α : Type} (p : α → Bool) :
    ∀ (l : List α),
      ((l.map p).filter (fun b => !b)).length = l.countP (fun a => !(p a)) := by
  intro l
  induction l with
  | nil => rfl
  | cons a l ih =>
    simp only [List.map_cons, List.filter, List.countP_cons]
    cases hpa : p a with
    | false => simp [hpa, ih]
    | true => simp [hpa, ih]

theorem foldChunks_dup_spec (o : AnkiOracle) (deck : String) (cd : Bool)
    (pol : DupPolicy) (bs : Nat) (flags : Bool)
    (S A : List InCard → Nat) (T : List InCard → List TraceEvent) :
    ∀ (cl : List (List InCard)),
      (∀ chunk ∈ cl, ∀ (k : Nat),
        (processChunk o deck (k + 1) (k * bs) chunk cd pol flags).skipped = S chunk ∧
        (processChunk o deck (k + 1) (k * bs) chunk cd pol flags).addedDup = A chunk ∧
        (processChunk o deck (k + 1) (k * bs) chunk cd pol flags).trace = T chunk) →
      ∀ (k : Nat) (r : UploadReport) (tr : List TraceEvent),
      (foldChunks o deck cd pol bs flags cl k (r, tr)).1.skippedDuplicates =
        r.skippedDuplicates + (cl.map S).sum ∧
      (foldChunks o deck cd pol bs flags cl k (r, tr)).1.addedDuplicates =
        r.addedDuplicates + (cl.map A).sum ∧
      (foldChunks o deck cd pol bs flags cl k (r, tr)).2 = tr ++ cl.flatMap T := by
  intro cl
  induction cl with
  | nil =>
    intro _ k r tr
    exact ⟨by simp [foldChunks], by simp [foldChunks], by simp [foldChunks]⟩
  | cons ch rest ih =>
    intro hz k r tr
    have ihz := fun c hc => hz c (List.mem_cons_of_mem ch hc)
    obtain ⟨h1, h2, h3⟩ := hz ch (List.mem_cons_self ch rest) k
    obtain ⟨ih1, ih2, ih3⟩ := ih ihz (k + 1)
      (⟨r.deckName, r.totalCards,
        r.successfulUploads + (processChunk o deck (k + 1) (k * bs) ch cd pol flags).succ,
        r.failedUploads + (processChunk o deck (k + 1) (k * bs) ch cd pol flags).failed,
        r.skippedDuplicates + (processChunk o deck (k + 1) (k * bs) ch cd pol flags).skipped,
        r.addedDuplicates + (processChunk o deck (k + 1) (k * bs) ch cd pol flags).addedDup,
        r.processingErrors ++ (processChunk o deck (k + 1) (k * bs) ch cd pol flags).errors,
        r.noteIds ++ (processChunk o deck (k + 1) (k * bs) ch cd pol flags).noteIds,
        r.batchesProcessed +
          (processChunk o deck (k + 1) (k * bs) ch cd pol flags).processedInc⟩)
      (tr ++ (processChunk o deck (k + 1) (k * bs) ch cd pol flags).trace)
    refine ⟨?_, ?_, ?_⟩
    · simp only [foldChunks]
      rw [ih1]
      simp only [h1, List.map_cons, List.sum_cons]
      omega
    · simp only [foldChunks]
      rw [ih2]
      simp only [h2, List.map_cons, List.sum_cons]
      omega
    · simp only [foldChunks]
      rw [ih3, h3]
      simp [List.append_assoc]

theorem countP_chunks_sum {α : Type} (bs : Nat) (q : α → Bool) (l : List α) :
    ((chunks bs l).map (fun ch => ch.countP q)).sum = l.countP q := by
  have h : ∀ (cl : List (List α)), (cl.map (fun ch => ch.countP q)).sum =
      cl.flatten.countP q := by
    intro cl
    induction cl with
    | nil => rfl
    | cons ch rest ih =>
      simp only [List.map_cons, List.sum_cons, List.flatten_cons, List.countP_append]
      rw [ih]
  rw [h, chunks_flatten]

theorem countP_not_map {α β : Type} (f : α → β) (p : β → Bool) (l : List α) :
    (l.map f).countP (fun b => !(p b)) = l.countP (fun a => !(p (f a))) := by
  rw [List.countP_map]
  rfl

theorem processChunk_skip_spec (o : AnkiOracle) (deck : String) (bn si : Nat)
    (F : List Char → CardTy → String → List (String × List Char))
    (hF : ∀ (content : List Char) (ct : CardTy) (mn : String),
      o.convertFields content ct mn = .ok (F content ct mn))
    (p : AnkiNote → Bool)
    (hca : ∀ ns, o.canAddNotes ns = .ok (ns.map p))
    (ids : List AnkiNote → List (Option Nat))
    (hadd : ∀ ns, o.addNotes ns = .ok (ids ns))
    (ch : List InCard) (hch : ch ≠ [])
    (hkeep : ∃ c ∈ ch, p (noteOf deck F c) = true) :
    (processChunk o deck bn si ch true .skip false).skipped =
      ch.countP (fun c => !(p (noteOf deck F c))) ∧
    (processChunk o deck bn si ch true .skip false).addedDup = 0 ∧
    (processChunk o deck bn si ch true .skip false).trace =
      [TraceEvent.canAddCall (ch.map (noteOf deck F)),
       TraceEvent.addCall ((ch.map (noteOf deck F)).filter p)] := by
  have hconv := convertChunk_all_ok o deck bn si F hF ch 0
  have hmapne : (ch.map (noteOf deck F)).isEmpty = false := by
    cases ch with
    | nil => exact absurd rfl hch
    | cons a l => rfl
  have hkept : (ch.map (noteOf deck F)).filter p ≠ [] := by
    obtain ⟨c, hc, hpc⟩ := hkeep
    intro hcon
    rw [List.filter_eq_nil_iff] at hcon
    exact absurd hpc (by simpa using hcon (noteOf deck F c) (List.mem_map_of_mem _ hc))
  have hkeptE : ((ch.map (noteOf deck F)).filter p).isEmpty = false := by
    cases hk : (ch.map (noteOf deck F)).filter p with
    | nil => exact absurd hk hkept
    | cons a l => rfl
  simp only [processChunk, hconv, hmapne, Bool.false_eq_true, if_false, hca,
    zip_map_filter_true, zip_map_filter_false_len, hkeptE, hadd]
  refine ⟨?_, ?_, ?_⟩
  · first
    | exact countP_not_map (noteOf deck F) p ch
    | trivial
  · first
    | rfl
    | trivial
  · first
    | rfl
    | trivial

theorem processChunk_addAnyway_spec (o : AnkiOracle) (deck : String) (bn si : Nat)
    (F : List Char → CardTy → String → List (String × List Char))
    (hF : ∀ (content : List Char) (ct : CardTy) (mn : String),
      o.convertFields content ct mn = .ok (F content ct mn))
    (p : AnkiNote → Bool)
    (hca : ∀ ns, o.canAddNotes ns = .ok (ns.map p))
    (ids : List AnkiNote → List (Option Nat))
    (hadd : ∀ ns, o.addNotes ns = .ok (ids ns))
    (ch : List InCard) (hch : ch ≠ []) :
    (processChunk o deck bn si ch true .addAnyway false).skipped = 0 ∧
    (processChunk o deck bn si ch true .addAnyway false).addedDup =
      ch.countP (fun c => !(p (noteOf deck F c))) ∧
    (processChunk o deck bn si ch true .addAnyway false).trace =
      [TraceEvent.canAddCall (ch.map (noteOf deck F)),
       TraceEvent.addCall (ch.map (noteOf deck F))] := by
  have hconv := convertChunk_all_ok o deck bn si F hF ch 0
  have hmapne : (ch.map (noteOf deck F)).isEmpty = false := by
    cases ch with
    | nil => exact absurd rfl hch
    | cons a l => rfl
  simp only [processChunk, hconv, hmapne, Bool.false_eq_true, if_false, hca,
    map_filter_not_len, hadd]
  refine ⟨?_, ?_, ?_⟩
  · first
    | rfl
    | trivial
  · first
    | exact countP_not_map (noteOf deck F) p ch
    | trivial
  · first
    | rfl
    | trivial

theorem convertChunk_congr (o1 o2 : AnkiOracle)
    (hC : o1.convertFields = o2.convertFields) (deck : String) (bn si : Nat) :
    ∀ (chunk : List InCard) (j : Nat),
      convertChunk o1 deck bn si chunk j = convertChunk o2 deck bn si chunk j := by
  intro chunk
  induction chunk with
  | nil => intro j; rfl
  | cons card rest ih => intro j; simp only [convertChunk, ih, hC]

theorem processChunk_result_indep (o1 o2 : AnkiOracle)
    (hC : o1.convertFields = o2.convertFields)
    (hA : o1.canAddNotes = o2.canAddNotes)
    (hN : o1.addNotes = o2.addNotes)
    (deck : String) (bn si : Nat) (ch : List InCard) (cd : Bool) (pol : DupPolicy)
    (fl1 fl2 : Bool) :
    ((processChunk o1 deck bn si ch cd pol fl1).errors,
     (processChunk o1 deck bn si ch cd pol fl1).succ,
     (processChunk o1 deck bn si ch cd pol fl1).failed,
     (processChunk o1 deck bn si ch cd pol fl1).skipped,
     (processChunk o1 deck bn si ch cd pol fl1).addedDup,
     (processChunk o1 deck bn si ch cd pol fl1).noteIds,
     (processChunk o1 deck bn si ch cd pol fl1).processedInc) =
    ((processChunk o2 deck bn si ch cd pol fl2).errors,
     (processChunk o2 deck bn si ch cd pol fl2).succ,
     (processChunk o2 deck bn si ch cd pol fl2).failed,
     (processChunk o2 deck bn si ch cd pol fl2).skipped,
     (processChunk o2 deck bn si ch cd pol fl2).addedDup,
     (processChunk o2 deck bn si ch cd pol fl2).noteIds,
     (processChunk o2 deck bn si ch cd pol fl2).processedInc) := by
  simp only [processChunk, convertChunk_congr o1 o2 hC deck bn si, hA, hN]
  repeat
    first
    | rfl
    | split

theorem foldChunks_result_indep (o1 o2 : AnkiOracle)
    (hC : o1.convertFields = o2.convertFields)
    (hA : o1.canAddNotes = o2.canAddNotes)
    (hN : o1.addNotes = o2.addNotes)
    (deck : String) (cd : Bool) (pol : DupPolicy) (bs : Nat) (fl1 fl2 : Bool) :
    ∀ (cl : List (List InCard)) (k : Nat) (r : UploadReport)
      (tr1 tr2 : List TraceEvent),
      (foldChunks o1 deck cd pol bs fl1 cl k (r, tr1)).1 =
        (foldChunks o2 deck cd pol bs fl2 cl k (r, tr2)).1 := by
  intro cl
  induction cl with
  | nil => intro k r tr1 tr2; rfl
  | cons ch rest ih =>
    intro k r tr1 tr2
    have h := processChunk_result_indep o1 o2 hC hA hN deck (k + 1) (k * bs) ch cd pol
      fl1 fl2
    simp only [Prod.mk.injEq] at h
    obtain ⟨h1, h2, h3, h4, h5, h6, h7⟩ := h
    simp only [foldChunks, h1, h2, h3, h4, h5, h6, h7]
    exact ih (k + 1) _ _ _

theorem uploadBody_result_indep (o1 o2 : AnkiOracle)
    (hP : o1.checkPermission = o2.checkPermission)
    (hD : o1.createDeck = o2.createDeck)
    (hC : o1.convertFields = o2.convertFields)
    (hA : o1.canAddNotes = o2.canAddNotes)
    (hN : o1.addNotes = o2.addNotes)
    (cards : List InCard) (deck : String) (cd : Bool) (pol : DupPolicy) (bs : Nat)
    (fl1 fl2 : Bool) :
    (uploadBody o1 cards deck cd pol bs fl1).1 =
      (uploadBody o2 cards deck cd pol bs fl2).1 := by
  simp only [uploadBody, hP, hD]
  cases o2.checkPermission with
  | error e => rfl
  | ok u =>
    cases o2.createDeck deck with
    | error e => rfl
    | ok v =>
      by_cases h0 : bs = 0
      · simp [h0]
      · simp only [h0, if_false]
        exact congrArg UploadResult.report
          (foldChunks_result_indep o1 o2 hC hA hN deck cd pol bs fl1 fl2 _ 0 _ _ _)

theorem processChunk_flags_trace (o : AnkiOracle) (deck : String) (bn si : Nat)
    (F : List Char → CardTy → String → List (String × List Char))
    (hF : ∀ (content : List Char) (ct : CardTy) (mn : String),
      o.convertFields content ct mn = .ok (F content ct mn))
    (ids : List AnkiNote → List (Option Nat))
    (hadd : ∀ ns, o.addNotes ns = .ok (ids ns))
    (ch : List InCard) (hch : ch ≠ []) (pol : DupPolicy) :
    (processChunk o deck bn si ch false pol true).skipped = 0 ∧
    (processChunk o deck bn si ch false pol true).addedDup = 0 ∧
    (processChunk o deck bn si ch false pol true).trace =
      TraceEvent.addCall (ch.map (noteOf deck F)) ::
        (if ((ids (ch.map (noteOf deck F))).filterMap id).isEmpty then []
         else [TraceEvent.flagCall ((ids (ch.map (noteOf deck F))).filterMap id)]) := by
  have hconv := convertChunk_all_ok o deck bn si F hF ch 0
  have hmapne : (ch.map (noteOf deck F)).isEmpty = false := by
    cases ch with
    | nil => exact absurd rfl hch
    | cons a l => rfl
  by_cases hcr : ((ids (ch.map (noteOf deck F))).filterMap id).isEmpty
  · simp [processChunk, hconv, hmapne, hadd, hcr]
  · cases hsf : o.setFlagForNotes ((ids (ch.map (noteOf deck F))).filterMap id) with
    | ok u => simp [processChunk, hconv, hmapne, hadd, hcr, hsf]
    | error e => simp [processChunk, hconv, hmapne, hadd, hcr, hsf]

/-- Claim C9, modelled from the spec (the flag-setting step of the latest
uploader revision is absent from src; only its tests reference it): the
flagging variant issues, after each successful bulk add that created at least
one note, a flag-setting call carrying exactly the created notes' ids; and any
behaviour of the flag call is caught and ignored — the returned result is
identical for any two flag behaviours, and identical to the result of the
source uploader without the flag step, so the success flag, the upload counts
and the processing_errors are never affected. -/
theorem C9_flag_step_best_effort (o : AnkiOracle) (cards : List InCard)
    (deck : String) (cd : Bool) (pol : DupPolicy) (bs : Nat)
    (sf sf' : List Nat → Except String Unit) :
    ((upload_cards_with_flags
        ⟨o.checkPermission, o.createDeck, o.convertFields, o.canAddNotes, o.addNotes, sf⟩
        cards deck cd pol bs).1 =
      (upload_cards_with_flags
        ⟨o.checkPermission, o.createDeck, o.convertFields, o.canAddNotes, o.addNotes, sf'⟩
        cards deck cd pol bs).1) ∧
    ((upload_cards_with_flags o cards deck cd pol bs).1 =
      (upload_cards_to_anki o cards deck cd pol bs).1) ∧
    (∀ (F : List Char → CardTy → String → List (String × List Char)),
      (∀ (content : List Char) (ct : CardTy) (mn : String),
        o.convertFields content ct mn = .ok (F content ct mn)) →
      ∀ (ids : List AnkiNote → List (Option Nat)),
      (∀ ns, o.addNotes ns = .ok (ids ns)) →
      o.checkPermission = .ok () → o.createDeck deck = .ok () → 0 < bs →
      cd = false →
      (upload_cards_with_flags o cards deck cd pol bs).2 =
        (chunks bs cards).flatMap (fun ch =>
          TraceEvent.addCall (ch.map (noteOf deck F)) ::
            (if ((ids (ch.map (noteOf deck F))).filterMap id).isEmpty then []
             else [TraceEvent.flagCall ((ids (ch.map (noteOf deck F))).filterMap id)]))) := by
  refine ⟨?_, ?_, ?_⟩
  · exact uploadBody_result_indep
      ⟨o.checkPermission, o.createDeck, o.convertFields, o.canAddNotes, o.addNotes, sf⟩
      ⟨o.checkPermission, o.createDeck, o.convertFields, o.canAddNotes, o.addNotes, sf'⟩
      rfl rfl rfl rfl rfl cards deck cd pol bs true true
  · exact uploadBody_result_indep o o rfl rfl rfl rfl rfl cards deck cd pol bs true false
  · intro F hF ids hadd hperm hdeck hbs hcd
    subst hcd
    have hbody : upload_cards_with_flags o cards deck false pol bs =
        (.report (foldChunks o deck false pol bs true (chunks bs cards) 0
          (⟨deck, cards.length, 0, 0, 0, 0, [], [], 0⟩, [])).1,
         (foldChunks o deck false pol bs true (chunks bs cards) 0
          (⟨deck, cards.length, 0, 0, 0, 0, [], [], 0⟩, [])).2) := by
      simp only [upload_cards_with_flags, uploadBody, hperm, hdeck]
      simp only [Nat.pos_iff_ne_zero.mp hbs, if_false]
    obtain ⟨_, _, h3⟩ := foldChunks_dup_spec o deck false pol bs true
      (fun _ => 0) (fun _ => 0)
      (fun ch => TraceEvent.addCall (ch.map (noteOf deck F)) ::
        (if ((ids (ch.map (noteOf deck F))).filterMap id).isEmpty then []
         else [TraceEvent.flagCall ((ids (ch.map (noteOf deck F))).filterMap id)]))
      (chunks bs cards)
      (fun chunk hch k =>
        processChunk_flags_trace o deck (k + 1) (k * bs) F hF ids hadd chunk
          (chunks_ne_nil bs hbs cards chunk hch) pol) 0
      ⟨deck, cards.length, 0, 0, 0, 0, [], [], 0⟩ []
    rw [hbody]
    simpa using h3

/-- Hypotheses of the C9 witness hold at a concrete instance, and the
flag-call trace conclusion follows by applying the theorem there. -/
theorem C9_flag_step_best_effort_witness :
    (oracleHappy.checkPermission = .ok () ∧ oracleHappy.createDeck "D" = .ok () ∧
      0 < 5) ∧
    (upload_cards_with_flags oracleHappy [cardW] "D" false .skip 5).2 =
      (chunks 5 [cardW]).flatMap (fun ch =>
        TraceEvent.addCall (ch.map (noteOf "D" (fun _ _ _ => [("Front", ['x'])]))) ::
          (if (((fun ns : List AnkiNote =>
                  (List.range ns.length).map (fun i => some (100 + i)))
                (ch.map (noteOf "D" (fun _ _ _ => [("Front", ['x'])])))).filterMap
                  id).isEmpty then []
           else [TraceEvent.flagCall
              (((fun ns : List AnkiNote =>
                  (List.range ns.length).map (fun i => some (100 + i)))
                (ch.map (noteOf "D" (fun _ _ _ => [("Front", ['x'])])))).filterMap id)])) :=
  ⟨⟨rfl, rfl, by decide⟩,
    (C9_flag_step_best_effort oracleHappy [cardW] "D" false .skip 5
        (fun _ => .ok ()) (fun _ => .ok ())).2.2
      (fun _ _ _ => [("Front", ['x'])]) (fun _ _ _ => rfl)
      (fun ns => (List.range ns.length).map (fun i => some (100 + i))) (fun _ => rfl)
      rfl rfl (by decide) rfl⟩

/-- Claim C4 (amended): with duplicate checking on, policy skip removes every
note the duplicate check reports as not addable from the chunk before the
bulk-add call (the trace shows each bulk-add receives exactly the filtered
chunk), and policy add_anyway removes nothing and tallies the reported
duplicates into added_duplicates; the returned counts equal the total number
of notes so removed (or so reported) PROVIDED every chunk keeps at least one
addable note and every bulk-add call succeeds — the source only adds a
chunk's skip/duplicate tally to the totals inside the branch where the
filtered chunk is non-empty and its bulk add succeeded, so without this
proviso the counts under-report (see the counterexample). -/
theorem C4_duplicate_policy_amended (o : AnkiOracle) (cards : List InCard)
    (deck : String) (pol : DupPolicy) (bs : Nat)
    (hperm : o.checkPermission = .ok ()) (hdeck : o.createDeck deck = .ok ())
    (hbs : 0 < bs)
    (F : List Char → CardTy → String → List (String × List Char))
    (hF : ∀ (content : List Char) (ct : CardTy) (mn : String),
      o.convertFields content ct mn = .ok (F content ct mn))
    (p : AnkiNote → Bool)
    (hca : ∀ ns, o.canAddNotes ns = .ok (ns.map p))
    (ids : List AnkiNote → List (Option Nat))
    (hadd : ∀ ns, o.addNotes ns = .ok (ids ns)) :
    (pol = .skip →
      (∀ ch ∈ chunks bs cards, ∃ c ∈ ch, p (noteOf deck F c) = true) →
      ∃ r, (upload_cards_to_anki o cards deck true pol bs).1 = .report r ∧
        r.skippedDuplicates = cards.countP (fun c => !(p (noteOf deck F c))) ∧
        r.addedDuplicates = 0 ∧
        (upload_cards_to_anki o cards deck true pol bs).2 =
          (chunks bs cards).flatMap (fun ch =>
            [TraceEvent.canAddCall (ch.map (noteOf deck F)),
             TraceEvent.addCall ((ch.map (noteOf deck F)).filter p)])) ∧
    (pol = .addAnyway →
      ∃ r, (upload_cards_to_anki o cards deck true pol bs).1 = .report r ∧
        r.addedDuplicates = cards.countP (fun c => !(p (noteOf deck F c))) ∧
        r.skippedDuplicates = 0 ∧
        (upload_cards_to_anki o cards deck true pol bs).2 =
          (chunks bs cards).flatMap (fun ch =>
            [TraceEvent.canAddCall (ch.map (noteOf deck F)),
             TraceEvent.addCall (ch.map (noteOf deck F))])) := by
  have hbody : upload_cards_to_anki o cards deck true pol bs =
      (.report (foldChunks o deck true pol bs false (chunks bs cards) 0
        (⟨deck, cards.length, 0, 0, 0, 0, [], [], 0⟩, [])).1,
       (foldChunks o deck true pol bs false (chunks bs cards) 0
        (⟨deck, cards.length, 0, 0, 0, 0, [], [], 0⟩, [])).2) := by
    simp only [upload_cards_to_anki, uploadBody, hperm, hdeck]
    simp only [Nat.pos_iff_ne_zero.mp hbs, if_false]
  constructor
  · intro hpol hkeep
    subst hpol
    obtain ⟨h1, h2, h3⟩ := foldChunks_dup_spec o deck true .skip bs false
      (fun ch => ch.countP (fun c => !(p (noteOf deck F c)))) (fun _ => 0)
      (fun ch => [TraceEvent.canAddCall (ch.map (noteOf deck F)),
        TraceEvent.addCall ((ch.map (noteOf deck F)).filter p)])
      (chunks bs cards)
      (fun chunk hch k =>
        processChunk_skip_spec o deck (k + 1) (k * bs) F hF p hca ids hadd
          chunk (chunks_ne_nil bs hbs cards chunk hch) (hkeep chunk hch)) 0
      ⟨deck, cards.length, 0, 0, 0, 0, [], [], 0⟩ []
    refine ⟨_, by rw [hbody], ?_, ?_, ?_⟩
    · rw [h1, countP_chunks_sum]
      simp
    · rw [h2]
      simp
    · rw [hbody]
      simpa using h3
  · intro hpol
    subst hpol
    obtain ⟨h1, h2, h3⟩ := foldChunks_dup_spec o deck true .addAnyway bs false
      (fun _ => 0) (fun ch => ch.countP (fun c => !(p (noteOf deck F c))))
      (fun ch => [TraceEvent.canAddCall (ch.map (noteOf deck F)),
        TraceEvent.addCall (ch.map (noteOf deck F))])
      (chunks bs cards)
      (fun chunk hch k =>
        processChunk_addAnyway_spec o deck (k + 1) (k * bs) F hF p hca ids hadd
          chunk (chunks_ne_nil bs hbs cards chunk hch)) 0
      ⟨deck, cards.length, 0, 0, 0, 0, [], [], 0⟩ []
    refine ⟨_, by rw [hbody], ?_, ?_, ?_⟩
    · rw [h2, countP_chunks_sum]
      simp
    · rw [h1]
      simp
    · rw [hbody]
      simpa using h3

/-- Hypotheses of the C4 amended-claim witness hold at a concrete instance
(an oracle that accepts every note), and the conclusion follows by applying
the theorem there. -/
theorem C4_duplicate_policy_amended_witness :
    (oracleHappy.checkPermission = .ok () ∧ oracleHappy.createDeck "D" = .ok () ∧
      0 < 5 ∧
      (∀ ch ∈ chunks 5 [cardW],
        ∃ c ∈ ch, (fun _ : AnkiNote => true) (noteOf "D" (fun _ _ _ => [("Front", ['x'])]) c) = true)) ∧
    (DupPolicy.skip = .skip →
      (∀ ch ∈ chunks 5 [cardW],
        ∃ c ∈ ch, (fun _ : AnkiNote => true) (noteOf "D" (fun _ _ _ => [("Front", ['x'])]) c) = true) →
      ∃ r, (upload_cards_to_anki oracleHappy [cardW] "D" true .skip 5).1 = .report r ∧
        r.skippedDuplicates =
          List.countP (fun c => !((fun _ : AnkiNote => true)
            (noteOf "D" (fun _ _ _ => [("Front", ['x'])]) c))) [cardW] ∧
        r.addedDuplicates = 0 ∧
        (upload_cards_to_anki oracleHappy [cardW] "D" true .skip 5).2 =
          (chunks 5 [cardW]).flatMap (fun ch =>
            [TraceEvent.canAddCall (ch.map (noteOf "D" (fun _ _ _ => [("Front", ['x'])]))),
             TraceEvent.addCall
               ((ch.map (noteOf "D" (fun _ _ _ => [("Front", ['x'])]))).filter
                 (fun _ => true))])) :=
  ⟨⟨rfl, rfl, by decide, by decide⟩,
    (C4_duplicate_policy_amended oracleHappy [cardW] "D" .skip 5 rfl rfl (by decide)
      (fun _ _ _ => [("Front", ['x'])]) (fun _ _ _ => rfl) (fun _ => true)
      (fun _ => rfl) (fun ns => (List.range ns.length).map (fun i => some (100 + i)))
      (fun _ => rfl)).1⟩

/-- Claim C10: the batched uploader's overall success flag is
`successful_uploads > 0`; consequently an empty input batch, a batch in which
every card fails field conversion, and a batch entirely filtered out as
duplicates under the skip policy are all reported with success false even
though no upload error occurred. -/
theorem C10_success_iff_any_upload (o : AnkiOracle) (cards : List InCard)
    (deck : String) (cd : Bool) (pol : DupPolicy) (bs : Nat)
    (hperm : o.checkPermission = .ok ()) (hdeck : o.createDeck deck = .ok ())
    (hbs : 0 < bs) :
    ∃ r, (upload_cards_to_anki o cards deck cd pol bs).1 = .report r ∧
      ((upload_cards_to_anki o cards deck cd pol bs).1.success = true ↔
        0 < r.successfulUploads) ∧
      (cards = [] → (upload_cards_to_anki o cards deck cd pol bs).1.success = false) ∧
      ((∀ (content : List Char) (ct : CardTy) (mn : String),
          ∃ e, o.convertFields content ct mn = .error e) →
        (upload_cards_to_anki o cards deck cd pol bs).1.success = false) ∧
      (cd = true → pol = .skip →
        (∀ ns, o.canAddNotes ns = .ok (ns.map (fun _ => false))) →
        (upload_cards_to_anki o cards deck cd pol bs).1.success = false) := by
  have hbody : (upload_cards_to_anki o cards deck cd pol bs).1 =
      .report (foldChunks o deck cd pol bs false (chunks bs cards) 0
        (⟨deck, cards.length, 0, 0, 0, 0, [], [], 0⟩, [])).1 := by
    simp only [upload_cards_to_anki, uploadBody, hperm, hdeck]
    simp only [Nat.pos_iff_ne_zero.mp hbs, if_false]
  refine ⟨_, hbody, ?_, ?_, ?_, ?_⟩
  · rw [hbody]; simp [UploadResult.success]
  · intro hnil
    subst hnil
    rw [hbody]
    simp [UploadResult.success, chunks, chunksAux, foldChunks]
  · intro hconv
    rw [hbody]
    simp only [UploadResult.success, decide_eq_false_iff_not, Nat.not_lt,
      Nat.le_zero]
    rw [foldChunks_succ_const]
    intro chunk k
    simp only [processChunk, convertChunk_all_error o deck (k + 1) (k * bs) hconv chunk 0,
      List.isEmpty_nil, if_true]
  · intro hcd hpol hdup
    subst hcd; subst hpol
    rw [hbody]
    simp only [UploadResult.success, decide_eq_false_iff_not, Nat.not_lt,
      Nat.le_zero]
    rw [foldChunks_succ_const]
    intro chunk k
    by_cases hne : (convertChunk o deck (k + 1) (k * bs) chunk 0).1.isEmpty
    · simp only [processChunk, hne, if_true]
    · simp only [processChunk, hne, if_false]
      rw [hdup]
      simp only [zip_map_false_filter, List.map_nil, List.isEmpty_nil, if_true]
      split
      · rfl
      · rfl

/-- Claim C3: for every batch and every remote behaviour the uploader returns
a result value (it is a total function of the oracle; every failure path below
is a returned value, never a propagated exception); the result's total_cards
always equals the input batch length; a setup failure (permission check or
deck creation) yields the bare failure value with success false, the error
message, and no partial tallies; and post-setup failures are recorded in
processing_errors and counted without aborting the remaining cards — in
particular when every bulk-add call fails, every card is still processed and
counted as failed and the errors are recorded, rather than an exception
cutting the batch short. -/
theorem C3_upload_never_raises (o : AnkiOracle) (cards : List InCard)
    (deck : String) (cd : Bool) (pol : DupPolicy) (bs : Nat) (hbs : 0 < bs) :
    (upload_cards_to_anki o cards deck cd pol bs).1.totalCardsOf = cards.length ∧
    (∀ e, o.checkPermission = .error e →
      (upload_cards_to_anki o cards deck cd pol bs).1 = .setupFailure e cards.length ∧
      (upload_cards_to_anki o cards deck cd pol bs).1.success = false) ∧
    (∀ e, o.checkPermission = .ok () → o.createDeck deck = .error e →
      (upload_cards_to_anki o cards deck cd pol bs).1 = .setupFailure e cards.length ∧
      (upload_cards_to_anki o cards deck cd pol bs).1.success = false) ∧
    (o.checkPermission = .ok () → o.createDeck deck = .ok () →
      ∃ r, (upload_cards_to_anki o cards deck cd pol bs).1 = .report r ∧
        r.totalCards = cards.length ∧ r.deckName = deck ∧
        (∀ (F : List Char → CardTy → String → List (String × List Char)),
          (∀ (content : List Char) (ct : CardTy) (mn : String),
            o.convertFields content ct mn = .ok (F content ct mn)) →
          cd = false → (∀ ns, ∃ e, o.addNotes ns = .error e) →
          r.successfulUploads = 0 ∧ r.failedUploads = cards.length ∧
          (cards ≠ [] → r.processingErrors ≠ []))) := by
  refine ⟨?_, ?_, ?_, ?_⟩
  · simp only [upload_cards_to_anki, uploadBody]
    cases hp : o.checkPermission with
    | error e => rfl
    | ok u =>
      cases u
      cases hd : o.createDeck deck with
      | error e => rfl
      | ok u =>
        cases u
        by_cases h0 : bs = 0
        · simp [h0, UploadResult.totalCardsOf]
        · simp only [h0, if_false, UploadResult.totalCardsOf]
          exact foldChunks_totalCards o deck cd pol bs false _ 0 _ _
  · intro e he
    constructor
    · simp [upload_cards_to_anki, uploadBody, he]
    · simp [upload_cards_to_anki, uploadBody, he, UploadResult.success]
  · intro e hp hd
    constructor
    · simp [upload_cards_to_anki, uploadBody, hp, hd]
    · simp [upload_cards_to_anki, uploadBody, hp, hd, UploadResult.success]
  · intro hp hd
    have hbody : (upload_cards_to_anki o cards deck cd pol bs).1 =
        .report (foldChunks o deck cd pol bs false (chunks bs cards) 0
          (⟨deck, cards.length, 0, 0, 0, 0, [], [], 0⟩, [])).1 := by
      simp only [upload_cards_to_anki, uploadBody, hp, hd]
      simp only [Nat.pos_iff_ne_zero.mp hbs, if_false]
    refine ⟨_, hbody, foldChunks_totalCards o deck cd pol bs false _ 0 _ _,
      foldChunks_deckName o deck cd pol bs false _ 0 _ _, ?_⟩
    intro F hF hcd hadd
    subst hcd
    have hz : ∀ (chunk : List InCard), chunk ≠ [] → ∀ (k : Nat),
        (processChunk o deck (k + 1) (k * bs) chunk false pol false).failed =
          chunk.length ∧
        (processChunk o deck (k + 1) (k * bs) chunk false pol false).succ = 0 ∧
        (processChunk o deck (k + 1) (k * bs) chunk false pol false).errors ≠ [] := by
      intro chunk hch k
      have hconv := convertChunk_all_ok o deck (k + 1) (k * bs) F hF chunk 0
      have hmapne : (chunk.map (noteOf deck F)).isEmpty = false := by
        cases chunk with
        | nil => exact absurd rfl hch
        | cons a l => rfl
      obtain ⟨e, he⟩ := hadd (chunk.map (noteOf deck F))
      simp only [processChunk, hconv, hmapne, Bool.false_eq_true, if_false, he,
        List.length_map, List.nil_append, List.length_nil, Nat.zero_add]
      simp
    obtain ⟨h1, h2, h3⟩ := foldChunks_failed_sum o deck false pol bs false hz
      (chunks bs cards) (chunks_ne_nil bs hbs cards) 0
      ⟨deck, cards.length, 0, 0, 0, 0, [], [], 0⟩ []
    refine ⟨h2, ?_, ?_⟩
    · rw [h1, chunks_map_length_sum]
      simp
    · intro hne
      refine h3 ?_
      intro hcon
      have := chunks_map_length_sum bs cards
      rw [hcon] at this
      simp only [List.map_nil, List.sum_nil] at this
      exact hne (List.eq_nil_of_length_eq_zero this.symm)

/-- Hypotheses of the C3 witness hold at a concrete instance (an oracle whose
bulk add always fails), and the conclusion follows by applying the theorem
there. -/
theorem C3_upload_never_raises_witness :
    0 < 2 ∧
    ((upload_cards_to_anki
        ⟨.ok (), fun _ => .ok (), fun _ _ _ => .ok [("Front", ['x'])],
         fun ns => .ok (ns.map (fun _ => true)), fun _ => .error "addfail",
         fun _ => .ok ()⟩ [cardW, cardW, cardW] "D" false .skip 2).1.totalCardsOf = 3 ∧
      True) := by
  refine ⟨by decide, ?_, trivial⟩
  have h := C3_upload_never_raises
    ⟨.ok (), fun _ => .ok (), fun _ _ _ => .ok [("Front", ['x'])],
     fun ns => .ok (ns.map (fun _ => true)), fun _ => .error "addfail",
     fun _ => .ok ()⟩ [cardW, cardW, cardW] "D" false .skip 2 (by decide)
  exact h.1

/-- Hypotheses of the C10 witness hold at a concrete instance, and the
conclusion follows by applying the theorem there. -/
theorem C10_success_iff_any_upload_witness :
    (oracleAllDup.checkPermission = .ok () ∧ oracleAllDup.createDeck "D" = .ok () ∧
      0 < 5) ∧
    ∃ r, (upload_cards_to_anki oracleAllDup [cardW] "D" true .skip 5).1 = .report r ∧
      ((upload_cards_to_anki oracleAllDup [cardW] "D" true .skip 5).1.success = true ↔
        0 < r.successfulUploads) ∧
      ([cardW] = ([] : List InCard) →
        (upload_cards_to_anki oracleAllDup [cardW] "D" true .skip 5).1.success = false) ∧
      ((∀ (content : List Char) (ct : CardTy) (mn : String),
          ∃ e, oracleAllDup.convertFields content ct mn = .error e) →
        (upload_cards_to_anki oracleAllDup [cardW] "D" true .skip 5).1.success = false) ∧
      (true = true → DupPolicy.skip = .skip →
        (∀ ns, oracleAllDup.canAddNotes ns = .ok (ns.map (fun _ => false))) →
        (upload_cards_to_anki oracleAllDup [cardW] "D" true .skip 5).1.success = false) :=
  ⟨⟨rfl, rfl, by decide⟩,
    C10_success_iff_any_upload oracleAllDup [cardW] "D" true .skip 5 rfl rfl (by decide)⟩

/-!
String-scan infrastructure for the cloze compiler claims.
-/

theorem isPre_iff (p : List Char) : ∀ (s : List Char),
    isPre p s = true ↔ ∃ t, s = p ++ t := by
  induction p with
  | nil =>
    intro s
    simp [isPre]
  | cons x ps ih =>
    intro s
    cases s with
    | nil =>
      simp only [isPre, Bool.false_eq_true, false_iff]
      intro ⟨t, ht⟩
      exact List.cons_ne_nil x (ps ++ t) ht.symm
    | cons c cs =>
      simp only [isPre, Bool.and_eq_true, decide_eq_true_eq, ih]
      constructor
      · intro ⟨hx, t, ht⟩
        exact ⟨t, by rw [hx, ht]; rfl⟩
      · intro ⟨t, ht⟩
        rw [List.cons_append] at ht
        injection ht with h1 h2
        exact ⟨h1.symm, t, h2⟩

theorem isPre_self_append (p t : List Char) : isPre p (p ++ t) = true :=
  (isPre_iff p (p ++ t)).mpr ⟨t, rfl⟩

theorem isPre_false_of_head_ne (x : Char) (ps : List Char) (c : Char) (cs : List Char)
    (h : c ≠ x) : isPre (x :: ps) (c :: cs) = false := by
  have hd : decide (x = c) = false := decide_eq_false (fun h2 => h h2.symm)
  simp [isPre, hd]

theorem containsSub_iff (p : List Char) : ∀ (s : List Char),
    containsSub p s = true ↔ occursIn p s := by
  intro s
  induction s with
  | nil =>
    simp only [containsSub, isPre_iff, occursIn]
    constructor
    · intro ⟨t, ht⟩
      exact ⟨[], t, ht⟩
    · intro ⟨a, b, hab⟩
      cases a with
      | nil => exact ⟨b, by simpa using hab⟩
      | cons y ys => simp at hab
  | cons c cs ih =>
    simp only [containsSub, Bool.or_eq_true, isPre_iff, ih, occursIn]
    constructor
    · intro h
      rcases h with ⟨t, ht⟩ | ⟨a, b, hab⟩
      · exact ⟨[], t, ht⟩
      · exact ⟨c :: a, b, by rw [hab]; rfl⟩
    · intro ⟨a, b, hab⟩
      cases a with
      | nil => exact Or.inl ⟨b, by simpa using hab⟩
      | cons y ys =>
        right
        rw [List.cons_append, List.cons_append] at hab
        injection hab with h1 h2
        exact ⟨ys, b, h2⟩

theorem replaceFirst_append_left (pat repl : List Char) :
    ∀ (a b : List Char), noStartIn pat a b →
      replaceFirst pat repl (a ++ b) = a ++ replaceFirst pat repl b := by
  intro a
  induction a with
  | nil => intro b _; rfl
  | cons c a ih =>
    intro b h
    have h0 : isPre pat (c :: (a ++ b)) = false := by
      have := h 0 (by simp)
      simpa using this
    have htail : noStartIn pat a b := by
      intro k hk
      have := h (k + 1) (by simpa using Nat.succ_lt_succ hk)
      simpa using this
    show replaceFirst pat repl (c :: (a ++ b)) = c :: (a ++ replaceFirst pat repl b)
    simp only [replaceFirst, h0, Bool.false_eq_true, if_false, List.cons.injEq, true_and]
    exact ih b htail

theorem replaceFirst_at_head (pat repl b : List Char) (hne : pat ≠ []) :
    replaceFirst pat repl (pat ++ b) = repl ++ b := by
  cases hp : pat with
  | nil => exact absurd hp hne
  | cons x ps =>
    subst hp
    rw [List.cons_append]
    simp only [replaceFirst, ← List.cons_append, isPre_self_append, if_true]
    congr 1
    exact List.drop_left (x :: ps) b

theorem noStartIn_nil (pat b : List Char) : noStartIn pat [] b := by
  intro k hk
  simp at hk

theorem noStartIn_cons (pat : List Char) (c : Char) (a b : List Char) :
    noStartIn pat (c :: a) b ↔
      isPre pat (c :: (a ++ b)) = false ∧ noStartIn pat a b := by
  constructor
  · intro h
    refine ⟨by simpa using h 0 (by simp), ?_⟩
    intro k hk
    have := h (k + 1) (by simpa using Nat.succ_lt_succ hk)
    simpa using this
  · intro ⟨h0, h⟩
    intro k hk
    cases k with
    | zero => simpa using h0
    | succ k =>
      have hk2 : k < a.length := by simpa using Nat.lt_of_succ_lt_succ hk
      simpa using h k hk2

theorem noStartIn_append (pat a a2 b : List Char)
    (h1 : noStartIn pat a (a2 ++ b)) (h2 : noStartIn pat a2 b) :
    noStartIn pat (a ++ a2) b := by
  intro k hk
  by_cases hka : k < a.length
  · rw [List.append_assoc]
    exact h1 k hka
  · have hge : a.length ≤ k := Nat.le_of_not_lt hka
    obtain ⟨i, hi⟩ : ∃ i, k = a.length + i := ⟨k - a.length, by omega⟩
    subst hi
    rw [List.append_assoc, List.drop_append]
    have hlen : i < a2.length := by
      have := hk
      simp only [List.length_append] at this
      omega
    exact h2 i hlen

theorem noStartIn_of_no_lbrace (ps : List Char) :
    ∀ (a b : List Char), (∀ c ∈ a, c ≠ lbrace) → noStartIn (lbrace :: ps) a b := by
  intro a
  induction a with
  | nil => intro b _; exact noStartIn_nil _ b
  | cons c a ih =>
    intro b h
    rw [noStartIn_cons]
    refine ⟨isPre_false_of_head_ne lbrace ps c (a ++ b)
      (h c (List.mem_cons_self c a)), ?_⟩
    exact ih b (fun x hx => h x (List.mem_cons_of_mem c hx))

theorem key_not_pre (b : List Char) :
    ∀ (mi w : List Char), (∀ c ∈ mi, c ≠ rbrace) → (∀ c ∈ w, c ≠ rbrace) →
      mi ≠ w →
      isPre (mi ++ rbrace :: rbrace :: []) (w ++ rbrace :: rbrace :: b) = false := by
  intro mi
  induction mi with
  | nil =>
    intro w hmi hw hne
    cases w with
    | nil => exact absurd rfl hne
    | cons d w2 =>
      rw [List.nil_append, List.cons_append]
      exact isPre_false_of_head_ne rbrace (rbrace :: []) d (w2 ++ rbrace :: rbrace :: b)
        (hw d (List.mem_cons_self d w2))
  | cons x mi2 ih =>
    intro w hmi hw hne
    cases w with
    | nil =>
      rw [List.cons_append, List.nil_append]
      exact isPre_false_of_head_ne x (mi2 ++ rbrace :: rbrace :: []) rbrace
        (rbrace :: b) (fun hcon => hmi x (List.mem_cons_self x mi2) hcon.symm)
    | cons d w2 =>
      rw [List.cons_append, List.cons_append]
      by_cases hxd : x = d
      · subst hxd
        have hrec := ih w2 (fun c hc => hmi c (List.mem_cons_of_mem x hc))
          (fun c hc => hw c (List.mem_cons_of_mem x hc))
          (fun hcon => hne (by rw [hcon]))
        simp [isPre, hrec]
      · exact isPre_false_of_head_ne x (mi2 ++ rbrace :: rbrace :: []) d
          (w2 ++ rbrace :: rbrace :: b) (fun hcon => hxd hcon.symm)

theorem noStartIn_wrapped (mi w : List Char)
    (hmi : ∀ c ∈ mi, c ≠ lbrace ∧ c ≠ rbrace)
    (hw : ∀ c ∈ w, c ≠ lbrace ∧ c ≠ rbrace)
    (hne : mi ≠ w) (b : List Char) :
    noStartIn (wrapRaw mi) (lbrace :: lbrace :: (w ++ [rbrace, rbrace])) b := by
  have hassoc : (w ++ [rbrace, rbrace]) ++ b = w ++ rbrace :: rbrace :: b := by
    simp
  rw [noStartIn_cons]
  constructor
  · show isPre (wrapRaw mi) (lbrace :: ((lbrace :: (w ++ [rbrace, rbrace])) ++ b)) = false
    rw [List.cons_append, hassoc]
    have hkey := key_not_pre b mi w (fun c hc => (hmi c hc).2) (fun c hc => (hw c hc).2) hne
    simp [wrapRaw, isPre, hkey]
  · rw [noStartIn_cons]
    constructor
    · show isPre (wrapRaw mi) (lbrace :: ((w ++ [rbrace, rbrace]) ++ b)) = false
      rw [hassoc]
      cases w with
      | nil =>
        have h2 : rbrace ≠ lbrace := by decide
        simp only [List.nil_append, wrapRaw, isPre]
        have hd : decide (lbrace = rbrace) = false :=
          decide_eq_false (fun hcon => h2 hcon.symm)
        simp [hd]
      | cons d w2 =>
        rw [List.cons_append]
        have hd : d ≠ lbrace := (hw d (List.mem_cons_self d w2)).1
        simp only [wrapRaw, isPre]
        have hd2 : decide (lbrace = d) = false :=
          decide_eq_false (fun hcon => hd hcon.symm)
        simp [hd2]
    · refine noStartIn_append (wrapRaw mi) w [rbrace, rbrace] b ?_ ?_
      · exact noStartIn_of_no_lbrace _ w ([rbrace, rbrace] ++ b)
          (fun c hc => (hw c hc).1)
      · rw [show ([rbrace, rbrace] : List Char) = rbrace :: rbrace :: [] from rfl]
        rw [noStartIn_cons]
        refine ⟨?_, ?_⟩
        · exact isPre_false_of_head_ne lbrace _ rbrace _ (by decide)
        · rw [noStartIn_cons]
          refine ⟨?_, noStartIn_nil _ b⟩
          exact isPre_false_of_head_ne lbrace _ rbrace _ (by decide)

theorem braceFree_props (s : List Char) (h : braceFree s = true) :
    ∀ c ∈ s, c ≠ lbrace ∧ c ≠ rbrace := by
  intro c hc
  have := List.all_eq_true.mp h c hc
  simpa using this

theorem payloadOK_props (s : List Char) (h : payloadOK s = true) :
    ∀ c ∈ s, c ≠ lbrace ∧ c ≠ rbrace ∧ c ≠ '\n' ∧ c ≠ '\\' := by
  intro c hc
  have := List.all_eq_true.mp h c hc
  simp only [Bool.and_eq_true, decide_eq_true_eq] at this
  tauto

theorem digitChar_props (k : Nat) (hk : k < 10) :
    Nat.digitChar k ≠ lbrace ∧ Nat.digitChar k ≠ rbrace ∧
      Nat.digitChar k ≠ '\n' ∧ Nat.digitChar k ≠ '\\' := by
  interval_cases k <;> exact ⟨by decide, by decide, by decide, by decide⟩

theorem natCharsAux_props :
    ∀ (f n : Nat) (acc : List Char),
      (∀ c ∈ acc, c ≠ lbrace ∧ c ≠ rbrace ∧ c ≠ '\n' ∧ c ≠ '\\') →
      ∀ c ∈ natCharsAux f n acc, c ≠ lbrace ∧ c ≠ rbrace ∧ c ≠ '\n' ∧ c ≠ '\\' := by
  intro f
  induction f with
  | zero => intro n acc hacc c hc; exact hacc c hc
  | succ f ih =>
    intro n acc hacc c hc
    simp only [natCharsAux] at hc
    by_cases hn : n < 10
    · simp only [hn, if_true] at hc
      rcases List.mem_cons.mp hc with h | h
      · subst h; exact digitChar_props n hn
      · exact hacc c h
    · simp only [hn, if_false] at hc
      refine ih (n / 10) (Nat.digitChar (n % 10) :: acc) ?_ c hc
      intro x hx
      rcases List.mem_cons.mp hx with h | h
      · subst h; exact digitChar_props (n % 10) (Nat.mod_lt n (by omega))
      · exact hacc x h

theorem natChars_props (n : Nat) :
    ∀ c ∈ natChars n, c ≠ lbrace ∧ c ≠ rbrace ∧ c ≠ '\n' ∧ c ≠ '\\' :=
  natCharsAux_props (n + 1) n [] (by intro c hc; simp at hc)

theorem compName_mem_cases (k : Nat) (m : List Char) (c : Char)
    (hc : c ∈ compName k m) :
    c = 'c' ∨ c ∈ natChars k ∨ c = ':' ∨ c ∈ m := by
  simp only [compName, List.mem_cons, List.mem_append] at hc
  rcases hc with h | h | h | h | h
  · exact Or.inl h
  · exact Or.inr (Or.inl h)
  · exact Or.inr (Or.inr (Or.inl h))
  · exact Or.inr (Or.inr (Or.inl h))
  · exact Or.inr (Or.inr (Or.inr h))

theorem compName_props (k : Nat) (m : List Char)
    (hm : ∀ c ∈ m, c ≠ lbrace ∧ c ≠ rbrace) :
    ∀ c ∈ compName k m, c ≠ lbrace ∧ c ≠ rbrace := by
  intro c hc
  rcases compName_mem_cases k m c hc with h | h | h | h
  · subst h; exact ⟨by decide, by decide⟩
  · exact ⟨(natChars_props k c h).1, (natChars_props k c h).2.1⟩
  · subst h; exact ⟨by decide, by decide⟩
  · exact hm c h

theorem compName_payloadOK (k : Nat) (m : List Char) (hm : payloadOK m = true) :
    payloadOK (compName k m) = true := by
  refine List.all_eq_true.mpr ?_
  intro c hc
  have h4 : c ≠ lbrace ∧ c ≠ rbrace ∧ c ≠ '\n' ∧ c ≠ '\\' := by
    rcases compName_mem_cases k m c hc with h | h | h
    · subst h; exact ⟨by decide, by decide, by decide, by decide⟩
    · exact natChars_props k c h
    · rcases h with h | h
      · subst h; exact ⟨by decide, by decide, by decide, by decide⟩
      · exact payloadOK_props m hm c h
  simp [h4.1, h4.2.1, h4.2.2.1, h4.2.2.2]

theorem wrapC_eq (k : Nat) (m : List Char) :
    wrapC k m = lbrace :: lbrace :: (compName k m ++ [rbrace, rbrace]) := by
  simp [wrapC, compName]

theorem clozeScan_skip_char (c : Char) (hc : c ≠ lbrace) (t : List Char) :
    clozeScan none (c :: t) = clozeScan none t := by
  cases t with
  | nil => rfl
  | cons d t2 =>
    have hd : decide (c = lbrace) = false := decide_eq_false hc
    simp [clozeScan, hd]

theorem clozeScan_skip_gap (g : List Char) (hg : ∀ c ∈ g, c ≠ lbrace) :
    ∀ (t : List Char), clozeScan none (g ++ t) = clozeScan none t := by
  induction g with
  | nil => intro t; rfl
  | cons c g2 ih =>
    intro t
    rw [List.cons_append,
      clozeScan_skip_char c (hg c (List.mem_cons_self c g2)) (g2 ++ t)]
    exact ih (fun x hx => hg x (List.mem_cons_of_mem c hx)) t

theorem clozeScan_none_of_no_lbrace (g : List Char) (hg : ∀ c ∈ g, c ≠ lbrace) :
    clozeScan none g = [] := by
  have := clozeScan_skip_gap g hg []
  simpa using this

theorem clozeScan_payload (m : List Char)
    (hm : ∀ c ∈ m, c ≠ rbrace ∧ c ≠ '\n') :
    ∀ (acc rest : List Char),
      clozeScan (some acc) (m ++ rbrace :: rbrace :: rest) =
        (acc ++ m) :: clozeScan none rest := by
  induction m with
  | nil =>
    intro acc rest
    simp [clozeScan]
  | cons c m2 ih =>
    intro acc rest
    have hc := hm c (List.mem_cons_self c m2)
    have hc1 : decide (c = rbrace) = false := decide_eq_false hc.1
    have hc2 : decide (c = '\n') = false := decide_eq_false hc.2
    rw [List.cons_append]
    cases hsh : m2 ++ rbrace :: rbrace :: rest with
    | nil => simp at hsh
    | cons d t2 =>
      show clozeScan (some acc) (c :: d :: t2) = (acc ++ c :: m2) :: clozeScan none rest
      simp only [clozeScan, hc1, Bool.false_and, Bool.false_eq_true, if_false]
      rw [if_neg hc.2]
      rw [← hsh, ih (fun x hx => hm x (List.mem_cons_of_mem c hx)) (acc ++ [c]) rest]
      simp

theorem clozeScan_render :
    ∀ (segs : List ClozeSeg) (tail : List Char),
      (∀ sg ∈ segs, braceFree sg.gap = true ∧ payloadOK sg.payload = true) →
      braceFree tail = true →
      clozeScan none (renderRawSegs segs tail) = segs.map (fun sg => sg.payload) := by
  intro segs
  induction segs with
  | nil =>
    intro tail _ htail
    exact clozeScan_none_of_no_lbrace tail
      (fun c hc => (braceFree_props tail htail c hc).1)
  | cons sg rest ih =>
    intro tail hsegs htail
    obtain ⟨hgap, hpay⟩ := hsegs sg (List.mem_cons_self sg rest)
    show clozeScan none (sg.gap ++ wrapRaw sg.payload ++ renderRawSegs rest tail) = _
    rw [List.append_assoc,
      clozeScan_skip_gap sg.gap (fun c hc => (braceFree_props _ hgap c hc).1)]
    show clozeScan none
      (lbrace :: lbrace :: (sg.payload ++ [rbrace, rbrace]) ++ renderRawSegs rest tail) = _
    have hshape : (sg.payload ++ [rbrace, rbrace]) ++ renderRawSegs rest tail =
        sg.payload ++ rbrace :: rbrace :: renderRawSegs rest tail := by
      simp
    rw [List.cons_append, List.cons_append, hshape]
    have hlb : decide (lbrace = lbrace) = true := by decide
    simp only [clozeScan, hlb, Bool.and_self, if_true]
    rw [clozeScan_payload sg.payload
      (fun c hc =>
        ⟨(payloadOK_props _ hpay c hc).2.1, (payloadOK_props _ hpay c hc).2.2.1⟩)
      [] (renderRawSegs rest tail)]
    rw [ih tail (fun s hs => hsegs s (List.mem_cons_of_mem sg hs)) htail]
    simp

theorem noClash_mem :
    ∀ (segs : List ClozeSeg) (k : Nat) (prev : List (Nat × List Char)),
      noClash k prev segs = true →
      ∀ sg ∈ segs, ∀ pr ∈ prev, sg.payload ≠ compName pr.1 pr.2 := by
  intro segs
  induction segs with
  | nil => intro k prev _ sg hsg; simp at hsg
  | cons s rest ih =>
    intro k prev h sg hsg pr hpr
    simp only [noClash, Bool.and_eq_true] at h
    rcases List.mem_cons.mp hsg with he | he
    · subst he
      have := List.all_eq_true.mp h.1 pr hpr
      simpa using this
    · exact ih (k + 1) ((k, s.payload) :: prev) h.2 sg he pr
        (List.mem_cons_of_mem _ hpr)

theorem noClash_tail (s : ClozeSeg) (rest : List ClozeSeg) (k : Nat)
    (prev : List (Nat × List Char)) (h : noClash k prev (s :: rest) = true) :
    noClash (k + 1) ((k, s.payload) :: prev) rest = true := by
  simp only [noClash, Bool.and_eq_true] at h
  exact h.2

theorem wrapRaw_ne_nil (m : List Char) : wrapRaw m ≠ [] := by
  simp [wrapRaw]

theorem clozeApply_structured :
    ∀ (segs : List ClozeSeg) (k : Nat) (prev : List (Nat × List Char))
      (C tail : List Char),
      (∀ sg ∈ segs, payloadOK sg.payload = true) →
      (∀ sg ∈ segs, braceFree sg.gap = true) →
      (∀ sg ∈ segs, ∀ b, noStartIn (wrapRaw sg.payload) C b) →
      noClash k prev segs = true →
      clozeApply k (segs.map (fun sg => sg.payload)) (C ++ renderRawSegs segs tail) =
        C ++ renderCompSegs k segs tail := by
  intro segs
  induction segs with
  | nil => intro k prev C tail _ _ _ _; rfl
  | cons sg rest ih =>
    intro k prev C tail hpay hgap hC hclash
    have hm := hpay sg (List.mem_cons_self sg rest)
    have hmp := payloadOK_props _ hm
    have hgp := braceFree_props _ (hgap sg (List.mem_cons_self sg rest))
    have hnostart : noStartIn (wrapRaw sg.payload) (C ++ sg.gap)
        (wrapRaw sg.payload ++ renderRawSegs rest tail) := by
      refine noStartIn_append _ C sg.gap _ (hC sg (List.mem_cons_self sg rest) _) ?_
      show noStartIn (lbrace :: (lbrace :: (sg.payload ++ [rbrace, rbrace]))) sg.gap _
      exact noStartIn_of_no_lbrace _ sg.gap _ (fun c hc => (hgp c hc).1)
    have hstep : replaceFirst (wrapRaw sg.payload) (wrapC k sg.payload)
        (C ++ renderRawSegs (sg :: rest) tail) =
        ((C ++ sg.gap) ++ wrapC k sg.payload) ++ renderRawSegs rest tail := by
      have h1 : C ++ renderRawSegs (sg :: rest) tail =
          (C ++ sg.gap) ++ (wrapRaw sg.payload ++ renderRawSegs rest tail) := by
        simp [renderRawSegs, List.append_assoc]
      rw [h1, replaceFirst_append_left _ _ _ _ hnostart,
        replaceFirst_at_head _ _ _ (wrapRaw_ne_nil sg.payload)]
      simp [List.append_assoc]
    show clozeApply k (sg.payload :: rest.map (fun s => s.payload))
        (C ++ renderRawSegs (sg :: rest) tail) = _
    simp only [clozeApply]
    rw [hstep]
    have hC2 : ∀ s2 ∈ rest, ∀ b,
        noStartIn (wrapRaw s2.payload) (((C ++ sg.gap) ++ wrapC k sg.payload)) b := by
      intro s2 hs2 b
      refine noStartIn_append _ (C ++ sg.gap) (wrapC k sg.payload) b ?_ ?_
      · refine noStartIn_append _ C sg.gap _ (hC s2 (List.mem_cons_of_mem sg hs2) _) ?_
        show noStartIn (lbrace :: (lbrace :: (s2.payload ++ [rbrace, rbrace]))) sg.gap _
        exact noStartIn_of_no_lbrace _ sg.gap _ (fun c hc => (hgp c hc).1)
      · rw [wrapC_eq]
        refine noStartIn_wrapped s2.payload (compName k sg.payload) ?_ ?_ ?_ b
        · intro c hc
          have h4 := payloadOK_props _ (hpay s2 (List.mem_cons_of_mem sg hs2)) c hc
          exact ⟨h4.1, h4.2.1⟩
        · exact compName_props k sg.payload (fun c hc => ⟨(hmp c hc).1, (hmp c hc).2.1⟩)
        · exact noClash_mem rest (k + 1) ((k, sg.payload) :: prev)
            (noClash_tail sg rest k prev hclash) s2 hs2 (k, sg.payload)
            (List.mem_cons_self _ _)
    have hrec := ih (k + 1) ((k, sg.payload) :: prev)
      ((C ++ sg.gap) ++ wrapC k sg.payload) tail
      (fun s2 hs2 => hpay s2 (List.mem_cons_of_mem sg hs2))
      (fun s2 hs2 => hgap s2 (List.mem_cons_of_mem sg hs2))
      hC2 (noClash_tail sg rest k prev hclash)
    rw [hrec]
    simp [renderCompSegs, List.append_assoc]

/-- Claim C2 (amended): on a text made of marker-delimited spans separated by
brace-free gaps, where the payloads contain no braces, newlines or
backslashes and no payload equals the braceless body `c<j>::<payload j>` of an
earlier compiled span, the compiler replaces the i-th span (in
first-occurrence order) by its ordinal-i compiled form — in particular
textually identical payloads receive distinct consecutive ordinals — and on a
text with zero marker-delimited spans it fails with the no-deletions error.
Without the payload restrictions a later substitution step can land inside an
earlier replacement (see the counterexample). -/
theorem C2_cloze_compile_amended (segs : List ClozeSeg) (tail : List Char)
    (hpay : ∀ sg ∈ segs, payloadOK sg.payload = true)
    (hgap : ∀ sg ∈ segs, braceFree sg.gap = true)
    (htail : braceFree tail = true)
    (hclash : noClash 1 [] segs = true)
    (hne : segs ≠ []) :
    create_anki_cloze_card (renderRawSegs segs tail) =
      some (renderCompSegs 1 segs tail) ∧
    (∀ t, clozeScan none t = [] → create_anki_cloze_card t = none) := by
  constructor
  · have hscan := clozeScan_render segs tail
      (fun sg hs => ⟨hgap sg hs, hpay sg hs⟩) htail
    have hms : (segs.map (fun sg => sg.payload)).isEmpty = false := by
      cases segs with
      | nil => exact absurd rfl hne
      | cons a l => rfl
    simp only [create_anki_cloze_card, hscan, hms, Bool.false_eq_true, if_false]
    have := clozeApply_structured segs 1 [] [] tail hpay hgap
      (fun sg _ b => noStartIn_nil _ b) hclash
    simpa using this
  · intro t ht
    simp [create_anki_cloze_card, ht]

/-- Hypotheses of the C2 amended-claim witness hold at the concrete input
consisting of the spans France and Paris with prose gaps, and the conclusion
follows by applying the theorem there. -/
theorem C2_cloze_compile_amended_witness :
    ((∀ sg ∈ [ClozeSeg.mk ['T', 'h', 'e', ' '] ['F', 'r', 'a', 'n', 'c', 'e'],
        ClozeSeg.mk [' ', 'i', 's', ' '] ['P', 'a', 'r', 'i', 's']],
        payloadOK sg.payload = true) ∧
      noClash 1 []
        [ClozeSeg.mk ['T', 'h', 'e', ' '] ['F', 'r', 'a', 'n', 'c', 'e'],
         ClozeSeg.mk [' ', 'i', 's', ' '] ['P', 'a', 'r', 'i', 's']] = true) ∧
    (create_anki_cloze_card
        (renderRawSegs
          [ClozeSeg.mk ['T', 'h', 'e', ' '] ['F', 'r', 'a', 'n', 'c', 'e'],
           ClozeSeg.mk [' ', 'i', 's', ' '] ['P', 'a', 'r', 'i', 's']] ['.']) =
      some (renderCompSegs 1
          [ClozeSeg.mk ['T', 'h', 'e', ' '] ['F', 'r', 'a', 'n', 'c', 'e'],
           ClozeSeg.mk [' ', 'i', 's', ' '] ['P', 'a', 'r', 'i', 's']] ['.']) ∧
      (∀ t, clozeScan none t = [] → create_anki_cloze_card t = none)) :=
  ⟨⟨by decide, by decide⟩,
    C2_cloze_compile_amended
      [ClozeSeg.mk ['T', 'h', 'e', ' '] ['F', 'r', 'a', 'n', 'c', 'e'],
       ClozeSeg.mk [' ', 'i', 's', ' '] ['P', 'a', 'r', 'i', 's']] ['.']
      (by decide) (by decide) (by decide) (by decide) (by decide)⟩

/-- Claim C8 (amended): a span already in compiled form `wrapC n p` is
re-matched by the compiler as an ordinary marker whose payload is the
braceless body `c<n>::p`, and is rewrapped with a fresh first-occurrence
ordinal: a text consisting of one such span between brace-free gaps compiles
to the doubly wrapped `wrapC 1 (c<n>::p)` rather than passing through
unchanged as the claim states (see the counterexample). -/
theorem C8_compiled_span_amended (g tail p : List Char) (n : Nat)
    (hg : braceFree g = true) (htail : braceFree tail = true)
    (hp : payloadOK p = true) :
    create_anki_cloze_card (g ++ wrapC n p ++ tail) =
      some (g ++ wrapC 1 (compName n p) ++ tail) := by
  have hwrap : wrapC n p = wrapRaw (compName n p) := by
    simp [wrapC, wrapRaw, compName]
  have hrender : g ++ wrapC n p ++ tail =
      renderRawSegs [ClozeSeg.mk g (compName n p)] tail := by
    simp [renderRawSegs, hwrap]
  have hcomp : g ++ wrapC 1 (compName n p) ++ tail =
      renderCompSegs 1 [ClozeSeg.mk g (compName n p)] tail := by
    simp [renderCompSegs]
  rw [hrender, hcomp]
  have hpays : ∀ sg ∈ [ClozeSeg.mk g (compName n p)], payloadOK sg.payload = true := by
    intro sg hsg
    rcases List.mem_singleton.mp hsg with h
    subst h
    exact compName_payloadOK n p hp
  have hgaps : ∀ sg ∈ [ClozeSeg.mk g (compName n p)], braceFree sg.gap = true := by
    intro sg hsg
    rcases List.mem_singleton.mp hsg with h
    subst h
    exact hg
  have hscan := clozeScan_render [ClozeSeg.mk g (compName n p)] tail
    (fun sg hs => ⟨hgaps sg hs, hpays sg hs⟩) htail
  simp only [create_anki_cloze_card, hscan, List.map_cons, List.map_nil,
    List.isEmpty_cons, Bool.false_eq_true, if_false]
  have := clozeApply_structured [ClozeSeg.mk g (compName n p)] 1 [] [] tail
    hpays hgaps (fun sg _ b => noStartIn_nil _ b) (by simp [noClash])
  simpa using this

/-- Hypotheses of the C8 amended-claim witness hold at a concrete compiled
span `wrapC 3 [4,2]` with prose around it, and the conclusion follows by
applying the theorem there. -/
theorem C8_compiled_span_amended_witness :
    (braceFree ['x', ' '] = true ∧ payloadOK ['4', '2'] = true) ∧
    create_anki_cloze_card (['x', ' '] ++ wrapC 3 ['4', '2'] ++ [' ', 'y']) =
      some (['x', ' '] ++ wrapC 1 (compName 3 ['4', '2']) ++ [' ', 'y']) :=
  ⟨⟨by decide, by decide⟩,
    C8_compiled_span_amended ['x', ' '] [' ', 'y'] ['4', '2'] 3 (by decide)
      (by decide) (by decide)⟩

theorem occursIn_cons (pat : List Char) (c : Char) (s : List Char)
    (h : occursIn pat s) : occursIn pat (c :: s) := by
  obtain ⟨a, b, hab⟩ := h
  exact ⟨c :: a, b, by simp [hab]⟩

theorem clozeScan_head_occurs_gen :
    ∀ (n : Nat) (t : List Char), t.length ≤ n →
      (∀ m ms, clozeScan none t = m :: ms → occursIn (wrapRaw m) t) ∧
      (∀ p m ms, clozeScan (some p) t = m :: ms →
        (∃ q b, m = p ++ q ∧ t = q ++ rbrace :: rbrace :: b) ∨
          occursIn (wrapRaw m) t) := by
  intro n
  induction n with
  | zero =>
    intro t ht
    have ht0 : t = [] := List.eq_nil_of_length_eq_zero (Nat.le_zero.mp ht)
    subst ht0
    constructor
    · intro m ms h; simp [clozeScan] at h
    · intro p m ms h; simp [clozeScan] at h
  | succ n ih =>
    intro t ht
    constructor
    · intro m ms h
      match t, ht with
      | [], _ => simp [clozeScan] at h
      | [c], _ => simp [clozeScan] at h
      | c :: d :: rest, ht =>
        simp only [clozeScan] at h
        split at h
        · rename_i hcd
          have hcd2 : c = lbrace ∧ d = lbrace := by
            simpa using hcd
          obtain ⟨hc, hd⟩ := hcd2
          subst hc; subst hd
          have hrest : rest.length ≤ n := by
            simp only [List.length_cons] at ht; omega
          rcases (ih rest hrest).2 [] m ms h with ⟨q, b, hm, hr2⟩ | hocc
          · have hm2 : m = q := by simpa using hm
            subst hm2
            exact ⟨[], b, by simp [wrapRaw, hr2]⟩
          · exact occursIn_cons _ _ _ (occursIn_cons _ _ _ hocc)
        · have hrest : (d :: rest).length ≤ n := by
            simp only [List.length_cons] at ht ⊢; omega
          exact occursIn_cons _ _ _ ((ih (d :: rest) hrest).1 m ms h)
    · intro p m ms h
      match t, ht with
      | [], _ => simp [clozeScan] at h
      | [c], _ => simp [clozeScan] at h
      | c :: d :: rest, ht =>
        simp only [clozeScan] at h
        split at h
        · rename_i hcd
          have hcd2 : c = rbrace ∧ d = rbrace := by
            simpa using hcd
          obtain ⟨hm, _⟩ := List.cons.inj h
          left
          exact ⟨[], rest, by simp [← hm], by simp [hcd2.1, hcd2.2]⟩
        · split at h
          · rename_i hnl
            have hrest : (d :: rest).length ≤ n := by
              simp only [List.length_cons] at ht ⊢; omega
            exact Or.inr (occursIn_cons _ _ _ ((ih (d :: rest) hrest).1 m ms h))
          · have hrest : (d :: rest).length ≤ n := by
              simp only [List.length_cons] at ht ⊢; omega
            rcases (ih (d :: rest) hrest).2 (p ++ [c]) m ms h with
              ⟨q, b, hm, hr2⟩ | hocc
            · left
              refine ⟨c :: q, b, ?_, ?_⟩
              · simp [hm]
              · simp [hr2]
            · exact Or.inr (occursIn_cons _ _ _ hocc)

theorem clozeScan_head_occurs (t m : List Char) (ms : List (List Char))
    (h : clozeScan none t = m :: ms) : occursIn (wrapRaw m) t :=
  (clozeScan_head_occurs_gen t.length t le_rfl).1 m ms h

theorem replaceFirst_occurs (pat repl : List Char) (hne : pat ≠ []) :
    ∀ (a b : List Char), ∃ a2 b2,
      replaceFirst pat repl (a ++ pat ++ b) = a2 ++ repl ++ b2 := by
  intro a
  induction a with
  | nil =>
    intro b
    refine ⟨[], b, ?_⟩
    simpa using replaceFirst_at_head pat repl b hne
  | cons x a ih =>
    intro b
    simp only [List.cons_append]
    by_cases hp : isPre pat (x :: (a ++ pat ++ b)) = true
    · refine ⟨[], (x :: (a ++ pat ++ b)).drop pat.length, ?_⟩
      simp only [replaceFirst]
      rw [if_pos hp]
      simp
    · obtain ⟨a2, b2, hab⟩ := ih b
      refine ⟨x :: a2, b2, ?_⟩
      simp only [replaceFirst]
      rw [if_neg hp, hab]
      simp

theorem replaceFirst_cases (pat repl : List Char) :
    ∀ t, replaceFirst pat repl t = t ∨
      ∃ a b, replaceFirst pat repl t = a ++ repl ++ b := by
  intro t
  induction t with
  | nil => exact Or.inl rfl
  | cons c rest ih =>
    by_cases hp : isPre pat (c :: rest) = true
    · right
      refine ⟨[], (c :: rest).drop pat.length, ?_⟩
      simp only [replaceFirst]
      rw [if_pos hp]
      simp
    · rcases ih with h | ⟨a, b, h⟩
      · left
        simp only [replaceFirst]
        rw [if_neg hp, h]
      · right
        refine ⟨c :: a, b, ?_⟩
        simp only [replaceFirst]
        rw [if_neg hp, h]
        simp

theorem clozeApply_installs :
    ∀ (ms : List (List Char)) (k : Nat) (t : List Char),
      (∃ i m a b, t = a ++ wrapC i m ++ b) →
      ∃ i m a b, clozeApply k ms t = a ++ wrapC i m ++ b := by
  intro ms
  induction ms with
  | nil => intro k t h; simpa [clozeApply] using h
  | cons m0 ms ih =>
    intro k t h
    simp only [clozeApply]
    apply ih
    rcases replaceFirst_cases (wrapRaw m0) (wrapC k m0) t with heq | ⟨a, b, heq⟩
    · rw [heq]; exact h
    · exact ⟨k, m0, a, b, heq⟩

theorem create_some_containsC (s t : List Char)
    (h : create_anki_cloze_card s = some t) :
    ∃ i m a b, t = a ++ wrapC i m ++ b := by
  simp only [create_anki_cloze_card] at h
  cases hms : clozeScan none s with
  | nil => rw [hms] at h; simp at h
  | cons m0 ms =>
    rw [hms] at h
    simp only [List.isEmpty_cons, Bool.false_eq_true, if_false,
      Option.some.injEq] at h
    subst h
    simp only [clozeApply]
    apply clozeApply_installs
    obtain ⟨a, b, hab⟩ := clozeScan_head_occurs s m0 ms hms
    rw [hab]
    obtain ⟨a2, b2, h2⟩ :=
      replaceFirst_occurs (wrapRaw m0) (wrapC 1 m0) (wrapRaw_ne_nil m0) a b
    exact ⟨1, m0, a2, b2, h2⟩

theorem preserve_cons_safe (c : Char) (hc : c ≠ '\\') (rest : List Char) :
    preserve_claude_latex (c :: rest) = c :: preserve_claude_latex rest := by
  cases rest with
  | nil => rfl
  | cons d r =>
    have hcd : (c = '\\' && d = '$') = false := by simp [hc]
    simp [preserve_claude_latex, hcd]

theorem preserve_append_run (l : List Char) (hl : ∀ c ∈ l, c ≠ '\\') :
    ∀ r, preserve_claude_latex (l ++ r) = l ++ preserve_claude_latex r := by
  induction l with
  | nil => intro r; rfl
  | cons c l ih =>
    intro r
    simp only [List.cons_append]
    rw [preserve_cons_safe c (hl c (List.mem_cons_self c l)) (l ++ r),
      ih (fun x hx => hl x (List.mem_cons_of_mem c hx)) r]

theorem preserve_split_at (c : Char) (hc : c ≠ '$') :
    ∀ (n : Nat) (a : List Char), a.length ≤ n → ∀ b,
      preserve_claude_latex (a ++ c :: b) =
        preserve_claude_latex a ++ preserve_claude_latex (c :: b) := by
  intro n
  induction n with
  | zero =>
    intro a ha b
    have ha0 : a = [] := List.eq_nil_of_length_eq_zero (Nat.le_zero.mp ha)
    subst ha0; rfl
  | succ n ih =>
    intro a ha b
    match a, ha with
    | [], _ => rfl
    | [x], _ =>
      have hxc : (x = '\\' && c = '$') = false := by simp [hc]
      simp [preserve_claude_latex, hxc]
    | x :: y :: rest, ha =>
      simp only [List.length_cons] at ha
      have hlen : (y :: rest).length ≤ n := by simp only [List.length_cons]; omega
      have hlen2 : rest.length ≤ n := by omega
      cases hxy : (x = '\\' && y = '$') with
      | true =>
        have e1 : ∀ r : List Char, preserve_claude_latex (x :: y :: r) =
            '$' :: preserve_claude_latex r := by
          intro r; simp [preserve_claude_latex, hxy]
        simp only [List.cons_append]
        rw [e1 (rest ++ c :: b), e1 rest, ih rest hlen2 b]
        simp
      | false =>
        have e1 : ∀ r : List Char, preserve_claude_latex (x :: y :: r) =
            x :: preserve_claude_latex (y :: r) := by
          intro r; simp [preserve_claude_latex, hxy]
        simp only [List.cons_append]
        rw [e1 (rest ++ c :: b)]
        have hy : y :: (rest ++ c :: b) = (y :: rest) ++ c :: b := by simp
        rw [hy, ih (y :: rest) hlen b, e1 rest]
        simp

theorem preserve_split (a : List Char) (c : Char) (hc : c ≠ '$')
    (b : List Char) :
    preserve_claude_latex (a ++ c :: b) =
      preserve_claude_latex a ++ preserve_claude_latex (c :: b) :=
  preserve_split_at c hc a.length a le_rfl b

theorem preserve_wrapC (a : List Char) (i : Nat) (m b : List Char) :
    preserve_claude_latex (a ++ wrapC i m ++ b) =
      preserve_claude_latex a ++ wrapC i (preserve_claude_latex m) ++
        preserve_claude_latex b := by
  have hall : ∀ c ∈ (lbrace :: lbrace :: 'c' :: (natChars i ++ [':', ':'])),
      c ≠ '\\' := by
    intro c hc
    simp only [List.mem_cons, List.mem_append] at hc
    rcases hc with h | h | h | h | h
    · subst h; decide
    · subst h; decide
    · subst h; decide
    · exact (natChars_props i c h).2.2.2
    · simp only [List.mem_cons, List.not_mem_nil, or_false] at h
      rcases h with h | h <;> (subst h; decide)
  have h1 : a ++ wrapC i m ++ b =
      a ++ lbrace :: ((lbrace :: 'c' :: (natChars i ++ [':', ':'])) ++
        (m ++ rbrace :: (rbrace :: b))) := by
    simp [wrapC, List.append_assoc]
  rw [h1, preserve_split a lbrace (by decide) _]
  have h2 : lbrace :: ((lbrace :: 'c' :: (natChars i ++ [':', ':'])) ++
      (m ++ rbrace :: (rbrace :: b))) =
      (lbrace :: lbrace :: 'c' :: (natChars i ++ [':', ':'])) ++
        (m ++ rbrace :: (rbrace :: b)) := by simp
  rw [h2, preserve_append_run _ hall (m ++ rbrace :: (rbrace :: b)),
    preserve_split m rbrace (by decide) (rbrace :: b),
    preserve_cons_safe rbrace (by decide) (rbrace :: b),
    preserve_cons_safe rbrace (by decide) b]
  simp [wrapC, List.append_assoc]

theorem dropWhile_head_false (p : Char → Bool) :
    ∀ (l : List Char) (x : Char) (xs : List Char),
      List.dropWhile p l = x :: xs → p x = false := by
  intro l
  induction l with
  | nil => intro x xs h; simp [List.dropWhile] at h
  | cons c rest ih =>
    intro x xs h
    rw [List.dropWhile_cons] at h
    by_cases hp : p c = true
    · rw [if_pos hp] at h; exact ih x xs h
    · rw [if_neg hp] at h
      obtain ⟨hx, _⟩ := List.cons.inj h
      rw [← hx]
      exact Bool.eq_false_iff.mpr hp

theorem trimRight_cons_not_ws (c : Char) (q : List Char)
    (hc : isWS c = false) :
    trimRight (c :: q) = c :: trimRight q := by
  simp only [trimRight, hc, Bool.and_false, Bool.false_eq_true, if_false]

theorem trim_cons_not_ws (c : Char) (q : List Char) (hc : isWS c = false) :
    trim (c :: q) = c :: trimRight q := by
  simp only [trim, List.dropWhile_cons, hc, Bool.false_eq_true, if_false]
  exact trimRight_cons_not_ws c q hc

theorem trim_head_not_ws (s : List Char) (c : Char) (rest : List Char)
    (h : trim s = c :: rest) : isWS c = false := by
  simp only [trim] at h
  cases hd : List.dropWhile (fun x => isWS x) s with
  | nil => rw [hd] at h; simp [trimRight] at h
  | cons x xs =>
    rw [hd] at h
    have hx : isWS x = false := by
      simpa using dropWhile_head_false (fun y => isWS y) s x xs hd
    rw [trimRight_cons_not_ws x xs hx] at h
    obtain ⟨hcx, _⟩ := List.cons.inj h
    rw [← hcx]
    exact hx

theorem splitNl_ne_nil : ∀ s : List Char, splitNl s ≠ [] := by
  intro s
  induction s with
  | nil => simp [splitNl]
  | cons c rest ih =>
    by_cases hc : c = '\n'
    · subst hc; simp [splitNl]
    · cases hq : splitNl rest with
      | nil => exact absurd hq ih
      | cons l ls => simp [splitNl, hc, hq]

theorem splitNl_cons_head (c : Char) (hc : c ≠ '\n') (q : List Char) :
    ∃ l ls, splitNl (c :: q) = (c :: l) :: ls := by
  cases hq : splitNl q with
  | nil => exact absurd hq (splitNl_ne_nil q)
  | cons l ls =>
    refine ⟨l, ls, ?_⟩
    simp [splitNl, hc, hq]

theorem preserve_ne_nil (s : List Char) (hs : s ≠ []) :
    preserve_claude_latex s ≠ [] := by
  cases s with
  | nil => exact absurd rfl hs
  | cons c rest =>
    cases rest with
    | nil => simp [preserve_claude_latex]
    | cons d r =>
      simp only [preserve_claude_latex]
      split <;> simp

/-- Claim C7 (amended): every cloze card emitted by parse_text_to_cards
contains at least one compiled numbered deletion of the shape
`\x7b\x7bcN::payload\x7d\x7d` (the cloze half of the claimed invariant holds
for every input, because create_anki_cloze_card only succeeds after installing
a wrapped span and preserve_claude_latex keeps that span's shape); and every
front-back card emitted by the paragraph-splitting fallback (the case where
the Q/A scan finds nothing) has a non-empty front.  The front-back half of
the claimed invariant fails on the Q/A path, whose groups can trim to the
empty string (see the counterexample). -/
theorem C7_card_invariant_amended (text : List Char) :
    (∀ t, PCard.cloze t ∈ parse_text_to_cards text CardTy.cloze →
      ∃ i m a b, t = a ++ wrapC i m ++ b) ∧
    (qaTop (trim text) = [] →
      ∀ f bk, PCard.fb f bk ∈ parse_text_to_cards text CardTy.frontBack →
        f ≠ []) := by
  constructor
  · intro t ht
    simp only [parse_text_to_cards] at ht
    rw [List.mem_filterMap] at ht
    obtain ⟨sec, _, hf⟩ := ht
    split at hf
    · cases hf
    · split at hf
      · rename_i u hu
        simp only [Option.some.injEq, PCard.cloze.injEq] at hf
        obtain ⟨i, m, a2, b2, hdec⟩ := create_some_containsC (trim sec) u hu
        refine ⟨i, preserve_claude_latex m, preserve_claude_latex a2,
          preserve_claude_latex b2, ?_⟩
        rw [← hf, hdec]
        exact preserve_wrapC a2 i m b2
      · cases hf
  · intro hqa f bk hmem
    simp only [parse_text_to_cards] at hmem
    rw [hqa] at hmem
    simp only [List.isEmpty_nil, if_true] at hmem
    rw [List.mem_filterMap] at hmem
    obtain ⟨sec, _, hf⟩ := hmem
    split at hf
    · cases hf
    · rename_i hse
      split at hf
      · simp only [Option.some.injEq, PCard.fb.injEq] at hf
        obtain ⟨hfront, _⟩ := hf
        have hne : trim sec ≠ [] := by
          intro h0
          rw [h0] at hse
          simp at hse
        cases hts : trim sec with
        | nil => exact absurd hts hne
        | cons c s2 =>
          have hcws : isWS c = false := trim_head_not_ws sec c s2 hts
          have hcnl : c ≠ '\n' := by
            intro h0
            rw [h0] at hcws
            simp [isWS] at hcws
          obtain ⟨l, ls, hsp⟩ := splitNl_cons_head c hcnl s2
          rw [← hfront, hts, hsp]
          simp only [List.headD_cons]
          rw [trim_cons_not_ws c l hcws]
          exact preserve_ne_nil _ (by simp)
      · cases hf

theorem containsSub_cons_of (pat : List Char) (c : Char) (rest : List Char)
    (h : containsSub pat rest = true) : containsSub pat (c :: rest) = true := by
  simp [containsSub, h]

theorem not_containsSub_tail (pat : List Char) (c : Char) (w : List Char)
    (h : containsSub pat (c :: w) = false) : containsSub pat w = false := by
  cases hw : containsSub pat w with
  | false => rfl
  | true =>
    rw [containsSub_cons_of pat c w hw] at h
    exact h

theorem qLabelFree_tail (c : Char) (w : List Char)
    (h : qLabelFree (c :: w) = true) : qLabelFree w = true := by
  simp only [qLabelFree, Bool.and_eq_true, Bool.not_eq_true'] at h ⊢
  exact ⟨not_containsSub_tail _ c w h.1, not_containsSub_tail _ c w h.2⟩

theorem aLabelFree_tail (c : Char) (w : List Char)
    (h : aLabelFree (c :: w) = true) : aLabelFree w = true := by
  simp only [aLabelFree, Bool.and_eq_true, Bool.not_eq_true'] at h ⊢
  exact ⟨not_containsSub_tail _ c w h.1, not_containsSub_tail _ c w h.2⟩

theorem label_cond_false (X Y c e : Char) (w : List Char)
    (hX : containsSub [X, ':'] (c :: e :: w) = false)
    (hY : containsSub [Y, ':'] (c :: e :: w) = false) :
    ((c = X || c = Y) && (e = ':')) = false := by
  cases hb : ((c = X || c = Y) && (e = ':')) with
  | false => rfl
  | true =>
    exfalso
    simp only [Bool.and_eq_true, Bool.or_eq_true, decide_eq_true_eq] at hb
    obtain ⟨hc, he⟩ := hb
    rcases hc with h | h
    · have hcs : containsSub [X, ':'] (c :: e :: w) = true := by
        subst h; subst he; simp [containsSub, isPre]
      rw [hcs] at hX
      exact Bool.noConfusion hX
    · have hcs : containsSub [Y, ':'] (c :: e :: w) = true := by
        subst h; subst he; simp [containsSub, isPre]
      rw [hcs] at hY
      exact Bool.noConfusion hY

/-- Hypotheses of the C7 amended-claim witness hold at the concrete cloze
input consisting of one raw marker span and at the concrete two-line
front-back fallback input, and the conclusions follow by applying the theorem
there. -/
theorem C7_card_invariant_amended_witness :
    (PCard.cloze (wrapC 1 ['x']) ∈
        parse_text_to_cards (wrapRaw ['x']) CardTy.cloze ∧
      ∃ i m a b, wrapC 1 ['x'] = a ++ wrapC i m ++ b) ∧
    (qaTop (trim ['h', 'i', '\n', 'y', 'o']) = [] ∧
      PCard.fb ['h', 'i'] ['y', 'o'] ∈
        parse_text_to_cards ['h', 'i', '\n', 'y', 'o'] CardTy.frontBack ∧
      (['h', 'i'] : List Char) ≠ []) :=
  ⟨⟨by decide,
      (C7_card_invariant_amended (wrapRaw ['x'])).1 (wrapC 1 ['x']) (by decide)⟩,
    ⟨by decide, by decide,
      (C7_card_invariant_amended ['h', 'i', '\n', 'y', 'o']).2 (by decide)
        ['h', 'i'] ['y', 'o'] (by decide)⟩⟩

theorem qaTop_structured :
    ∀ (w0 : List Char), qLabelFree w0 = true →
      ∀ (qc : Char), (qc = 'Q' ∨ qc = 'q') → ∀ (R : List Char),
        qaTop (w0 ++ qc :: ':' :: R) = qaScan false R [] [] := by
  intro w0
  induction w0 with
  | nil =>
    intro _ qc hqc R
    rcases hqc with h | h <;> subst h <;> simp [qaTop]
  | cons c w0 ih =>
    intro hq qc hqc R
    have hq2 : qLabelFree w0 = true := qLabelFree_tail c w0 hq
    have hqsplit : containsSub ['Q', ':'] (c :: w0) = false ∧
        containsSub ['q', ':'] (c :: w0) = false := by
      simp only [qLabelFree, Bool.and_eq_true, Bool.not_eq_true'] at hq
      exact hq
    cases w0 with
    | nil =>
      have hcond : ((c = 'Q' || c = 'q') && (qc = ':')) = false := by
        rcases hqc with h | h <;> simp [h]
      have hstep := ih hq2 qc hqc R
      simp only [List.nil_append] at hstep
      rw [show ([c] : List Char) ++ qc :: ':' :: R = c :: qc :: ':' :: R from by simp,
        show qaTop (c :: qc :: ':' :: R) = qaTop (qc :: ':' :: R) from by
          simp [qaTop, hcond]]
      exact hstep
    | cons e w1 =>
      have hcond : ((c = 'Q' || c = 'q') && (e = ':')) = false :=
        label_cond_false 'Q' 'q' c e w1 hqsplit.1 hqsplit.2
      rw [show ((c :: e :: w1) ++ qc :: ':' :: R) = c :: e :: (w1 ++ qc :: ':' :: R) from
          by simp,
        show qaTop (c :: e :: (w1 ++ qc :: ':' :: R)) =
          qaTop (e :: (w1 ++ qc :: ':' :: R)) from by simp [qaTop, hcond]]
      have hstep := ih hq2 qc hqc R
      simpa using hstep

theorem qaScan_front :
    ∀ (front : List Char), aLabelFree front = true →
      ∀ (ac : Char), (ac = 'A' ∨ ac = 'a') → ∀ (R facc b : List Char),
        qaScan false (front ++ ac :: ':' :: R) facc b =
          qaScan true R (facc ++ front) [] := by
  intro front
  induction front with
  | nil =>
    intro _ ac hac R facc b
    rcases hac with h | h <;> subst h <;> simp [qaScan]
  | cons c fr ih =>
    intro ha ac hac R facc b
    have ha2 : aLabelFree fr = true := aLabelFree_tail c fr ha
    have hasplit : containsSub ['A', ':'] (c :: fr) = false ∧
        containsSub ['a', ':'] (c :: fr) = false := by
      simp only [aLabelFree, Bool.and_eq_true, Bool.not_eq_true'] at ha
      exact ha
    cases fr with
    | nil =>
      have hcond : ((c = 'A' || c = 'a') && (ac = ':')) = false := by
        rcases hac with h | h <;> simp [h]
      rw [show ([c] : List Char) ++ ac :: ':' :: R = c :: ac :: ':' :: R from by simp,
        show qaScan false (c :: ac :: ':' :: R) facc b =
          qaScan false (ac :: ':' :: R) (facc ++ [c]) b from by simp [qaScan, hcond]]
      have hstep := ih ha2 ac hac R (facc ++ [c]) b
      simpa using hstep
    | cons e fr2 =>
      have hcond : ((c = 'A' || c = 'a') && (e = ':')) = false :=
        label_cond_false 'A' 'a' c e fr2 hasplit.1 hasplit.2
      rw [show ((c :: e :: fr2) ++ ac :: ':' :: R) = c :: e :: (fr2 ++ ac :: ':' :: R) from
          by simp,
        show qaScan false (c :: e :: (fr2 ++ ac :: ':' :: R)) facc b =
          qaScan false (e :: (fr2 ++ ac :: ':' :: R)) (facc ++ [c]) b from by
            simp [qaScan, hcond]]
      have hstep := ih ha2 ac hac R (facc ++ [c]) b
      simp only [List.cons_append] at hstep
      rw [hstep]
      simp

theorem qaScan_back_label :
    ∀ (back : List Char), qLabelFree back = true →
      ∀ (qc : Char), (qc = 'Q' ∨ qc = 'q') → ∀ (R f bacc : List Char),
        qaScan true (back ++ qc :: ':' :: R) f bacc =
          (f, bacc ++ back) :: qaScan false R [] [] := by
  intro back
  induction back with
  | nil =>
    intro _ qc hqc R f bacc
    rcases hqc with h | h <;> subst h <;> simp [qaScan]
  | cons c bk ih =>
    intro hq qc hqc R f bacc
    have hq2 : qLabelFree bk = true := qLabelFree_tail c bk hq
    have hqsplit : containsSub ['Q', ':'] (c :: bk) = false ∧
        containsSub ['q', ':'] (c :: bk) = false := by
      simp only [qLabelFree, Bool.and_eq_true, Bool.not_eq_true'] at hq
      exact hq
    cases bk with
    | nil =>
      have hcond : ((c = 'Q' || c = 'q') && (qc = ':')) = false := by
        rcases hqc with h | h <;> simp [h]
      rw [show ([c] : List Char) ++ qc :: ':' :: R = c :: qc :: ':' :: R from by simp,
        show qaScan true (c :: qc :: ':' :: R) f bacc =
          qaScan true (qc :: ':' :: R) f (bacc ++ [c]) from by simp [qaScan, hcond]]
      have hstep := ih hq2 qc hqc R f (bacc ++ [c])
      simpa using hstep
    | cons e bk2 =>
      have hcond : ((c = 'Q' || c = 'q') && (e = ':')) = false :=
        label_cond_false 'Q' 'q' c e bk2 hqsplit.1 hqsplit.2
      rw [show ((c :: e :: bk2) ++ qc :: ':' :: R) = c :: e :: (bk2 ++ qc :: ':' :: R) from
          by simp,
        show qaScan true (c :: e :: (bk2 ++ qc :: ':' :: R)) f bacc =
          qaScan true (e :: (bk2 ++ qc :: ':' :: R)) f (bacc ++ [c]) from by
            simp [qaScan, hcond]]
      have hstep := ih hq2 qc hqc R f (bacc ++ [c])
      simp only [List.cons_append] at hstep
      rw [hstep]
      simp

theorem qaScan_back_end :
    ∀ (back : List Char), qLabelFree back = true → ∀ (f bacc : List Char),
      qaScan true back f bacc = [(f, bacc ++ back)] := by
  intro back
  induction back with
  | nil => intro _ f bacc; simp [qaScan]
  | cons c bk ih =>
    intro hq f bacc
    have hq2 : qLabelFree bk = true := qLabelFree_tail c bk hq
    have hqsplit : containsSub ['Q', ':'] (c :: bk) = false ∧
        containsSub ['q', ':'] (c :: bk) = false := by
      simp only [qLabelFree, Bool.and_eq_true, Bool.not_eq_true'] at hq
      exact hq
    cases bk with
    | nil => simp [qaScan]
    | cons e bk2 =>
      have hcond : ((c = 'Q' || c = 'q') && (e = ':')) = false :=
        label_cond_false 'Q' 'q' c e bk2 hqsplit.1 hqsplit.2
      rw [show qaScan true (c :: e :: bk2) f bacc =
        qaScan true (e :: bk2) f (bacc ++ [c]) from by simp [qaScan, hcond]]
      rw [ih hq2 f (bacc ++ [c])]
      simp

theorem qaScan_false_no_label :
    ∀ (z : List Char), aLabelFree z = true → ∀ (facc b : List Char),
      qaScan false z facc b = [] := by
  intro z
  induction z with
  | nil => intro _ facc b; rfl
  | cons c z2 ih =>
    intro ha facc b
    have ha2 : aLabelFree z2 = true := aLabelFree_tail c z2 ha
    have hasplit : containsSub ['A', ':'] (c :: z2) = false ∧
        containsSub ['a', ':'] (c :: z2) = false := by
      simp only [aLabelFree, Bool.and_eq_true, Bool.not_eq_true'] at ha
      exact ha
    cases z2 with
    | nil => rfl
    | cons e z3 =>
      have hcond : ((c = 'A' || c = 'a') && (e = ':')) = false :=
        label_cond_false 'A' 'a' c e z3 hasplit.1 hasplit.2
      rw [show qaScan false (c :: e :: z3) facc b =
        qaScan false (e :: z3) (facc ++ [c]) b from by simp [qaScan, hcond]]
      exact ih ha2 (facc ++ [c]) b

theorem qaScan_run :
    ∀ (rest : List QASeg) (sg : QASeg) (junk : Option (Char × List Char)),
      (∀ s ∈ sg :: rest, (s.qc = 'Q' ∨ s.qc = 'q') ∧ (s.ac = 'A' ∨ s.ac = 'a') ∧
        aLabelFree s.front = true ∧ qLabelFree s.back = true) →
      (∀ qc z, junk = some (qc, z) → (qc = 'Q' ∨ qc = 'q') ∧ aLabelFree z = true) →
      qaScan false (sg.front ++ sg.ac :: ':' ::
          (sg.back ++ (renderQASegs rest ++ renderQAJunk junk))) [] [] =
        (sg :: rest).map (fun s => (s.front, s.back)) := by
  intro rest
  induction rest with
  | nil =>
    intro sg junk hsegs hjunk
    obtain ⟨_, hac, hfr, hbk⟩ := hsegs sg (List.mem_cons_self _ _)
    rw [qaScan_front sg.front hfr sg.ac hac _ [] []]
    cases junk with
    | none =>
      simp only [renderQASegs, renderQAJunk, List.nil_append, List.append_nil]
      rw [qaScan_back_end sg.back hbk sg.front []]
      simp
    | some pz =>
      obtain ⟨qc, z⟩ := pz
      obtain ⟨hqcj, hzj⟩ := hjunk qc z rfl
      simp only [renderQASegs, renderQAJunk, List.nil_append]
      rw [qaScan_back_label sg.back hbk qc hqcj z sg.front [],
        qaScan_false_no_label z hzj [] []]
      simp
  | cons sg2 rest2 ih =>
    intro sg junk hsegs hjunk
    obtain ⟨_, hac, hfr, hbk⟩ := hsegs sg (List.mem_cons_self _ _)
    have hsegs2 : ∀ s ∈ sg2 :: rest2, (s.qc = 'Q' ∨ s.qc = 'q') ∧
        (s.ac = 'A' ∨ s.ac = 'a') ∧ aLabelFree s.front = true ∧
        qLabelFree s.back = true :=
      fun s hs => hsegs s (List.mem_cons_of_mem _ hs)
    obtain ⟨hqc2, _, _, _⟩ := hsegs2 sg2 (List.mem_cons_self _ _)
    rw [qaScan_front sg.front hfr sg.ac hac _ [] []]
    have harg : renderQASegs (sg2 :: rest2) ++ renderQAJunk junk =
        sg2.qc :: ':' :: (sg2.front ++ sg2.ac :: ':' ::
          (sg2.back ++ (renderQASegs rest2 ++ renderQAJunk junk))) := by
      simp [renderQASegs, List.append_assoc]
    rw [harg, qaScan_back_label sg.back hbk sg2.qc hqc2 _ ([] ++ sg.front) []]
    rw [ih sg2 junk hsegs2 hjunk]
    simp

theorem qaTop_renderQA (w0 : List Char) (segs : List QASeg)
    (junk : Option (Char × List Char))
    (hw0 : qLabelFree w0 = true)
    (hsegs : ∀ s ∈ segs, (s.qc = 'Q' ∨ s.qc = 'q') ∧ (s.ac = 'A' ∨ s.ac = 'a') ∧
      aLabelFree s.front = true ∧ qLabelFree s.back = true)
    (hjunk : ∀ qc z, junk = some (qc, z) → (qc = 'Q' ∨ qc = 'q') ∧
      aLabelFree z = true)
    (hne : segs ≠ []) :
    qaTop (renderQA w0 segs junk) = segs.map (fun s => (s.front, s.back)) := by
  cases segs with
  | nil => exact absurd rfl hne
  | cons sg rest =>
    obtain ⟨hqc, _, _, _⟩ := hsegs sg (List.mem_cons_self _ _)
    have hren : renderQA w0 (sg :: rest) junk =
        w0 ++ sg.qc :: ':' :: (sg.front ++ sg.ac :: ':' ::
          (sg.back ++ (renderQASegs rest ++ renderQAJunk junk))) := by
      simp [renderQA, renderQASegs, List.append_assoc]
    rw [hren, qaTop_structured w0 hw0 sg.qc hqc _,
      qaScan_run rest sg junk hsegs hjunk]

theorem trimRight_eq_self :
    ∀ (t : List Char), (∀ x, t.getLast? = some x → isWS x = false) →
      trimRight t = t := by
  intro t
  induction t with
  | nil => intro _; rfl
  | cons c q ih =>
    intro h
    cases q with
    | nil =>
      have hc : isWS c = false := h c (by simp)
      simp [trimRight, hc]
    | cons d q2 =>
      have hq : trimRight (d :: q2) = d :: q2 :=
        ih (fun x hx => h x (by rw [List.getLast?_cons_cons]; exact hx))
      have e : trimRight (c :: d :: q2) =
          if (trimRight (d :: q2)).isEmpty && isWS c then []
          else c :: trimRight (d :: q2) := rfl
      rw [e, hq]
      simp

theorem trimRight_getLast :
    ∀ (t : List Char) (x : Char), (trimRight t).getLast? = some x →
      isWS x = false := by
  intro t
  induction t with
  | nil => intro x hx; simp [trimRight] at hx
  | cons c q ih =>
    intro x hx
    have e : trimRight (c :: q) =
        if (trimRight q).isEmpty && isWS c then [] else c :: trimRight q := rfl
    rw [e] at hx
    split at hx
    · simp at hx
    · rename_i hcond
      cases hr : trimRight q with
      | nil =>
        rw [hr] at hx hcond
        simp only [List.isEmpty_nil, Bool.true_and] at hcond
        simp only [hr, List.getLast?_singleton, Option.some.injEq] at hx
        rw [← hx]
        exact Bool.eq_false_iff.mpr hcond
      | cons y ys =>
        rw [hr, List.getLast?_cons_cons] at hx
        exact ih x (by rw [hr]; exact hx)

theorem trim_getLast (s : List Char) (x : Char)
    (h : (trim s).getLast? = some x) : isWS x = false :=
  trimRight_getLast (s.dropWhile (fun c => isWS c)) x h

theorem trim_eq_self (t : List Char)
    (hh : ∀ c rest, t = c :: rest → isWS c = false)
    (hl : ∀ x, t.getLast? = some x → isWS x = false) :
    trim t = t := by
  cases t with
  | nil => rfl
  | cons c q =>
    have hc : isWS c = false := hh c q rfl
    simp only [trim, List.dropWhile_cons, hc, Bool.false_eq_true, if_false]
    exact trimRight_eq_self (c :: q) hl

theorem preserve_head_cases (t : List Char) (c : Char) (rest : List Char)
    (h : preserve_claude_latex t = c :: rest) :
    (∃ q, t = c :: q) ∨ c = '$' := by
  match t with
  | [] => simp [preserve_claude_latex] at h
  | [x] =>
    simp only [preserve_claude_latex] at h
    obtain ⟨hx, _⟩ := List.cons.inj h
    exact Or.inl ⟨[], by rw [hx]⟩
  | x :: y :: q =>
    simp only [preserve_claude_latex] at h
    split at h
    · obtain ⟨hx, _⟩ := List.cons.inj h
      exact Or.inr hx.symm
    · obtain ⟨hx, _⟩ := List.cons.inj h
      exact Or.inl ⟨y :: q, by rw [hx]⟩

theorem preserve_getLast_at :
    ∀ (n : Nat) (t : List Char), t.length ≤ n → ∀ x,
      (preserve_claude_latex t).getLast? = some x →
      t.getLast? = some x ∨ x = '$' := by
  intro n
  induction n with
  | zero =>
    intro t ht x hx
    have ht0 : t = [] := List.eq_nil_of_length_eq_zero (Nat.le_zero.mp ht)
    subst ht0
    simp [preserve_claude_latex] at hx
  | succ n ih =>
    intro t ht x hx
    match t, ht with
    | [], _ => simp [preserve_claude_latex] at hx
    | [c], _ =>
      simp only [preserve_claude_latex] at hx
      exact Or.inl hx
    | c :: d :: q, ht =>
      simp only [List.length_cons] at ht
      simp only [preserve_claude_latex] at hx
      split at hx
      · cases hq : q with
        | nil =>
          rw [hq] at hx
          simp only [preserve_claude_latex, List.getLast?_singleton,
            Option.some.injEq] at hx
          exact Or.inr hx.symm
        | cons e q2 =>
          have hpne : preserve_claude_latex (e :: q2) ≠ [] :=
            preserve_ne_nil (e :: q2) (by simp)
          cases hp : preserve_claude_latex (e :: q2) with
          | nil => exact absurd hp hpne
          | cons z zs =>
            rw [hq, hp, List.getLast?_cons_cons] at hx
            have hlen : (e :: q2).length ≤ n := by
              rw [hq] at ht
              simp only [List.length_cons] at ht ⊢
              omega
            rcases ih (e :: q2) hlen x (by rw [hp]; exact hx) with h | h
            · left
              rw [List.getLast?_cons_cons, List.getLast?_cons_cons]
              exact h
            · exact Or.inr h
      · have hpne : preserve_claude_latex (d :: q) ≠ [] :=
          preserve_ne_nil (d :: q) (by simp)
        cases hp : preserve_claude_latex (d :: q) with
        | nil => exact absurd hp hpne
        | cons z zs =>
          rw [hp, List.getLast?_cons_cons] at hx
          have hlen : (d :: q).length ≤ n := by
            simp only [List.length_cons]
            omega
          rcases ih (d :: q) hlen x (by rw [hp]; exact hx) with h | h
          · left
            rw [List.getLast?_cons_cons]
            exact h
          · exact Or.inr h

theorem preserve_trim_trimmed (s : List Char) :
    trim (preserve_claude_latex (trim s)) = preserve_claude_latex (trim s) := by
  apply trim_eq_self
  · intro c rest h
    rcases preserve_head_cases (trim s) c rest h with ⟨q, hq⟩ | hd
    · exact trim_head_not_ws s c q hq
    · rw [hd]; decide
  · intro x hx
    rcases preserve_getLast_at (trim s).length (trim s) le_rfl x hx with h | h
    · exact trim_getLast s x h
    · rw [h]; decide

theorem containsSub_append_of (pat t : List Char)
    (h : containsSub pat t = true) (pre post : List Char) :
    containsSub pat (pre ++ t ++ post) = true := by
  rw [containsSub_iff] at h ⊢
  obtain ⟨a, b, hab⟩ := h
  exact ⟨pre ++ a, b ++ post, by rw [hab]; simp [List.append_assoc]⟩

theorem trimRight_prefix : ∀ t : List Char, ∃ u, t = trimRight t ++ u := by
  intro t
  induction t with
  | nil => exact ⟨[], rfl⟩
  | cons c q ih =>
    have e : trimRight (c :: q) =
        if (trimRight q).isEmpty && isWS c then [] else c :: trimRight q := rfl
    by_cases hcond : ((trimRight q).isEmpty && isWS c) = true
    · refine ⟨c :: q, ?_⟩
      rw [e, if_pos hcond]
      rfl
    · obtain ⟨u, hu⟩ := ih
      refine ⟨u, ?_⟩
      rw [e, if_neg hcond]
      simp only [List.cons_append]
      rw [← hu]

theorem trim_infix (s : List Char) : ∃ pre post, s = pre ++ trim s ++ post := by
  obtain ⟨u, hu⟩ := trimRight_prefix (s.dropWhile (fun c => isWS c))
  refine ⟨s.takeWhile (fun c => isWS c), u, ?_⟩
  calc s = s.takeWhile (fun c => isWS c) ++ s.dropWhile (fun c => isWS c) :=
        (List.takeWhile_append_dropWhile _ _).symm
    _ = s.takeWhile (fun c => isWS c) ++
          (trimRight (s.dropWhile (fun c => isWS c)) ++ u) := by rw [← hu]
    _ = s.takeWhile (fun c => isWS c) ++ trim s ++ u := by
          simp [trim, List.append_assoc]

theorem containsSub_trim (pat s : List Char)
    (h : containsSub pat (trim s) = true) : containsSub pat s = true := by
  obtain ⟨pre, post, hs⟩ := trim_infix s
  rw [hs]
  exact containsSub_append_of pat (trim s) h pre post

theorem not_containsSub_trim (pat s : List Char)
    (h : containsSub pat s = false) :
    containsSub pat (trim s) = false := by
  cases hc : containsSub pat (trim s) with
  | false => rfl
  | true =>
    rw [containsSub_trim pat s hc] at h
    exact h

theorem labelFree_split (s : List Char) (h : labelFree s = true) :
    containsSub ['Q', ':'] s = false ∧ containsSub ['q', ':'] s = false ∧
      containsSub ['A', ':'] s = false ∧ containsSub ['a', ':'] s = false := by
  simp only [labelFree, qLabelFree, aLabelFree, Bool.and_eq_true,
    Bool.not_eq_true'] at h
  tauto

theorem labelFree_join (s : List Char)
    (h1 : containsSub ['Q', ':'] s = false)
    (h2 : containsSub ['q', ':'] s = false)
    (h3 : containsSub ['A', ':'] s = false)
    (h4 : containsSub ['a', ':'] s = false) : labelFree s = true := by
  simp only [labelFree, qLabelFree, aLabelFree, Bool.and_eq_true,
    Bool.not_eq_true']
  tauto

theorem labelFree_trim (s : List Char) (h : labelFree s = true) :
    labelFree (trim s) = true := by
  obtain ⟨h1, h2, h3, h4⟩ := labelFree_split s h
  exact labelFree_join (trim s) (not_containsSub_trim _ s h1)
    (not_containsSub_trim _ s h2) (not_containsSub_trim _ s h3)
    (not_containsSub_trim _ s h4)

theorem preserve_containsSub_label :
    ∀ (n : Nat) (s : List Char), s.length ≤ n → ∀ (x : Char), x ≠ '$' →
      containsSub [x, ':'] (preserve_claude_latex s) = true →
      containsSub [x, ':'] s = true := by
  intro n
  induction n with
  | zero =>
    intro s hs x _ h
    have hs0 : s = [] := List.eq_nil_of_length_eq_zero (Nat.le_zero.mp hs)
    subst hs0
    simp [preserve_claude_latex, containsSub, isPre] at h
  | succ n ih =>
    intro s hs x hx h
    match s, hs with
    | [], _ => simp [preserve_claude_latex, containsSub, isPre] at h
    | [c], _ =>
      simp only [preserve_claude_latex] at h
      simp [containsSub, isPre] at h
    | c :: d :: q, hs =>
      simp only [List.length_cons] at hs
      simp only [preserve_claude_latex] at h
      split at h
      · simp only [containsSub] at h
        rw [isPre_false_of_head_ne x [':'] '$' (preserve_claude_latex q)
          (Ne.symm hx), Bool.false_or] at h
        have hq := ih q (by omega) x hx h
        exact containsSub_cons_of _ c _ (containsSub_cons_of _ d _ hq)
      · simp only [containsSub] at h
        rw [Bool.or_eq_true] at h
        rcases h with h | h
        · obtain ⟨t2, ht2⟩ := (isPre_iff [x, ':'] _).mp h
          obtain ⟨hcx, ht3⟩ := List.cons.inj ht2
          rcases preserve_head_cases (d :: q) ':' t2 ht3 with ⟨q2, hq2⟩ | hcol
          · obtain ⟨hd, _⟩ := List.cons.inj hq2
            have hip : isPre [x, ':'] (c :: d :: q) = true := by
              rw [isPre_iff]
              exact ⟨q, by simp [hcx, hd]⟩
            simp [containsSub, hip]
          · exact absurd hcol (by decide)
        · have hq := ih (d :: q) (by simp only [List.length_cons]; omega) x hx h
          exact containsSub_cons_of _ c _ hq

theorem not_containsSub_preserve (x : Char) (hx : x ≠ '$') (s : List Char)
    (h : containsSub [x, ':'] s = false) :
    containsSub [x, ':'] (preserve_claude_latex s) = false := by
  cases hc : containsSub [x, ':'] (preserve_claude_latex s) with
  | false => rfl
  | true =>
    rw [preserve_containsSub_label s.length s le_rfl x hx hc] at h
    exact h

theorem labelFree_preserve (s : List Char) (h : labelFree s = true) :
    labelFree (preserve_claude_latex s) = true := by
  obtain ⟨h1, h2, h3, h4⟩ := labelFree_split s h
  exact labelFree_join _ (not_containsSub_preserve 'Q' (by decide) s h1)
    (not_containsSub_preserve 'q' (by decide) s h2)
    (not_containsSub_preserve 'A' (by decide) s h3)
    (not_containsSub_preserve 'a' (by decide) s h4)

/-- Claim C1 counterexample: on the input `Q: x A: a A: b`, which contains a
well-formed Q/A pair, the parser returns a card whose back is `a A: b` — it
still contains the `A:` label text, because the second regex group runs to the
next Q-label or the end of text and is free to cross further A-labels.  This
refutes the claim that emitted fronts and backs contain no label text. -/
theorem C1_label_leftover_counterexample :
    parse_text_to_cards
        ['Q', ':', ' ', 'x', ' ', 'A', ':', ' ', 'a', ' ', 'A', ':', ' ', 'b']
        CardTy.frontBack =
      [PCard.fb ['x'] ['a', ' ', 'A', ':', ' ', 'b']] ∧
    containsSub ['A', ':'] ['a', ' ', 'A', ':', ' ', 'b'] = true := by decide

/-- Claim C1 (amended): on an already-trimmed structured input made of a
Q-label-free preamble, one or more Q/A pairs whose fronts and backs are free
of both labels, and an optional trailing junk Q-label whose remainder has no
A-label, the front-back parser emits exactly one card per pair in order of
occurrence, each card holding the whitespace-trimmed, escape-unprocessed
front and back of its pair; the Q/A scan is non-empty, so the
paragraph-splitting fallback is not used; and every emitted front and back
has no leading or trailing whitespace and no leftover label text.  Without
the label-freeness side conditions the claim is false: a back may retain
`A:` label text (see the counterexample). -/
theorem C1_qa_parse_amended (w0 : List Char) (segs : List QASeg)
    (junk : Option (Char × List Char))
    (hw0 : qLabelFree w0 = true)
    (hsegs : ∀ sg ∈ segs, (sg.qc = 'Q' ∨ sg.qc = 'q') ∧
      (sg.ac = 'A' ∨ sg.ac = 'a') ∧
      labelFree sg.front = true ∧ labelFree sg.back = true)
    (hjunk : ∀ qc z, junk = some (qc, z) → (qc = 'Q' ∨ qc = 'q') ∧
      aLabelFree z = true)
    (hne : segs ≠ [])
    (htrim : trim (renderQA w0 segs junk) = renderQA w0 segs junk) :
    parse_text_to_cards (renderQA w0 segs junk) CardTy.frontBack =
      segs.map (fun sg => PCard.fb (preserve_claude_latex (trim sg.front))
        (preserve_claude_latex (trim sg.back))) ∧
    qaTop (trim (renderQA w0 segs junk)) ≠ [] ∧
    (∀ sg ∈ segs,
      trim (preserve_claude_latex (trim sg.front)) =
          preserve_claude_latex (trim sg.front) ∧
      trim (preserve_claude_latex (trim sg.back)) =
          preserve_claude_latex (trim sg.back) ∧
      labelFree (preserve_claude_latex (trim sg.front)) = true ∧
      labelFree (preserve_claude_latex (trim sg.back)) = true) := by
  have hsegs2 : ∀ s ∈ segs, (s.qc = 'Q' ∨ s.qc = 'q') ∧
      (s.ac = 'A' ∨ s.ac = 'a') ∧ aLabelFree s.front = true ∧
      qLabelFree s.back = true := by
    intro s hs
    obtain ⟨h1, h2, h3, h4⟩ := hsegs s hs
    refine ⟨h1, h2, ?_, ?_⟩
    · simp only [labelFree, Bool.and_eq_true] at h3
      exact h3.2
    · simp only [labelFree, Bool.and_eq_true] at h4
      exact h4.1
  have hqa := qaTop_renderQA w0 segs junk hw0 hsegs2 hjunk hne
  refine ⟨?_, ?_, ?_⟩
  · simp only [parse_text_to_cards]
    rw [htrim, hqa]
    have hmapne : (segs.map (fun s => (s.front, s.back))).isEmpty = false := by
      cases segs with
      | nil => exact absurd rfl hne
      | cons a l => rfl
    rw [hmapne]
    simp only [Bool.false_eq_true, if_false, List.map_map]
    rfl
  · rw [htrim, hqa]
    cases segs with
    | nil => exact absurd rfl hne
    | cons a l => simp
  · intro sg hs
    obtain ⟨_, _, h3, h4⟩ := hsegs sg hs
    exact ⟨preserve_trim_trimmed sg.front, preserve_trim_trimmed sg.back,
      labelFree_preserve _ (labelFree_trim _ h3),
      labelFree_preserve _ (labelFree_trim _ h4)⟩

/-- Hypotheses of the C1 amended-claim witness hold at the concrete
structured input rendering to `Q: cap? A: Paris`, and the conclusion follows
by applying the theorem there. -/
theorem C1_qa_parse_amended_witness :
    ((∀ sg ∈ [qaW], (sg.qc = 'Q' ∨ sg.qc = 'q') ∧ (sg.ac = 'A' ∨ sg.ac = 'a') ∧
        labelFree sg.front = true ∧ labelFree sg.back = true) ∧
      trim (renderQA [] [qaW] none) = renderQA [] [qaW] none) ∧
    (parse_text_to_cards (renderQA [] [qaW] none) CardTy.frontBack =
        [qaW].map (fun sg => PCard.fb (preserve_claude_latex (trim sg.front))
          (preserve_claude_latex (trim sg.back))) ∧
      qaTop (trim (renderQA [] [qaW] none)) ≠ [] ∧
      (∀ sg ∈ [qaW],
        trim (preserve_claude_latex (trim sg.front)) =
            preserve_claude_latex (trim sg.front) ∧
        trim (preserve_claude_latex (trim sg.back)) =
            preserve_claude_latex (trim sg.back) ∧
        labelFree (preserve_claude_latex (trim sg.front)) = true ∧
        labelFree (preserve_claude_latex (trim sg.back)) = true)) :=
  ⟨⟨by decide, by decide⟩,
    C1_qa_parse_amended [] [qaW] none (by decide) (by decide)
      (by intro qc z h; simp at h) (by decide) (by decide)⟩

theorem dollarFree_props (s : List Char) (h : dollarFree s = true) :
    ∀ c ∈ s, c ≠ '$' := by
  intro c hc
  have := List.all_eq_true.mp h c hc
  simpa using this

theorem ddTry_not_dollar (c : Char) (hc : c ≠ '$') (t : List Char) :
    ddTry (c :: t) = none := by
  unfold ddTry
  split
  · rename_i rest heq
    obtain ⟨hc2, _⟩ := List.cons.inj heq
    exact absurd hc2 hc
  · rfl

theorem ddTry_dollar_second_not (d : Char) (hd : d ≠ '$') (t : List Char) :
    ddTry ('$' :: d :: t) = none := by
  unfold ddTry
  split
  · rename_i rest heq
    obtain ⟨_, heq2⟩ := List.cons.inj heq
    obtain ⟨hd2, _⟩ := List.cons.inj heq2
    exact absurd hd2 hd
  · rfl

theorem ddTry_some_eq (s p r : List Char) (h : ddTry s = some (p, r)) :
    s = '$' :: '$' :: (p ++ '$' :: '$' :: r) := by
  unfold ddTry at h
  split at h
  · rename_i rest
    simp only [] at h
    split at h
    · exact Option.noConfusion h
    · split at h
      · rename_i r2 heq2
        simp only [Option.some.injEq, Prod.mk.injEq] at h
        obtain ⟨hp, hr⟩ := h
        have hrest : rest = p ++ '$' :: '$' :: r := by
          conv_lhs => rw [← List.takeWhile_append_dropWhile
            (fun c => (c ≠ '$' : Bool)) rest]
          rw [hp, heq2, hr]
        rw [hrest]
      · exact Option.noConfusion h
  · exact Option.noConfusion h

theorem ddTry_some_length (s p r : List Char) (h : ddTry s = some (p, r)) :
    r.length + 4 ≤ s.length := by
  rw [ddTry_some_eq s p r h]
  simp only [List.length_cons, List.length_append]
  omega

theorem subDD_cons_none (c : Char) (t : List Char) (h : ddTry (c :: t) = none) :
    subDD (c :: t) = c :: subDD t := by
  simp only [subDD, List.length_cons, subDDAux, h]

theorem subDD_cons_some (c : Char) (t p r : List Char)
    (h : ddTry (c :: t) = some (p, r)) :
    subDD (c :: t) = '\\' :: '[' :: (p ++ '\\' :: ']' :: subDDAux t.length r) := by
  simp only [subDD, List.length_cons, subDDAux, h]

theorem subDDAux_fuel :
    ∀ (n f : Nat) (s : List Char), f ≤ n → s.length ≤ f →
      subDDAux f s = subDD s := by
  intro n
  induction n with
  | zero =>
    intro f s hf hs
    have hf0 : f = 0 := Nat.le_zero.mp hf
    subst hf0
    have hs0 : s = [] := List.eq_nil_of_length_eq_zero (Nat.le_zero.mp hs)
    subst hs0
    rfl
  | succ n ih =>
    intro f s hf hs
    cases f with
    | zero =>
      have hs0 : s = [] := List.eq_nil_of_length_eq_zero (Nat.le_zero.mp hs)
      subst hs0
      rfl
    | succ f =>
      cases s with
      | nil => rfl
      | cons c t =>
        simp only [List.length_cons] at hs
        cases hdd : ddTry (c :: t) with
        | none =>
          rw [show subDDAux (f + 1) (c :: t) = c :: subDDAux f t from by
            simp only [subDDAux, hdd]]
          rw [ih f t (by omega) (by omega), subDD_cons_none c t hdd]
        | some pr =>
          obtain ⟨p, r⟩ := pr
          have hlen := ddTry_some_length (c :: t) p r hdd
          simp only [List.length_cons] at hlen
          rw [show subDDAux (f + 1) (c :: t) =
            '\\' :: '[' :: (p ++ '\\' :: ']' :: subDDAux f r) from by
              simp only [subDDAux, hdd]]
          rw [ih f r (by omega) (by omega), subDD_cons_some c t p r hdd]
          rw [ih t.length r (by omega) (by omega)]

theorem subDD_gap :
    ∀ (g : List Char), (∀ c ∈ g, c ≠ '$') → ∀ t,
      subDD (g ++ t) = g ++ subDD t := by
  intro g
  induction g with
  | nil => intro _ t; rfl
  | cons c g ih =>
    intro hg t
    rw [List.cons_append,
      subDD_cons_none c (g ++ t)
        (ddTry_not_dollar c (hg c (List.mem_cons_self c g)) _),
      ih (fun x hx => hg x (List.mem_cons_of_mem c hx)) t]
    simp

theorem takeWhile_all_append (P : Char → Bool) :
    ∀ (p : List Char), (∀ c ∈ p, P c = true) → ∀ (x : Char) (t : List Char),
      P x = false →
      (p ++ x :: t).takeWhile P = p ∧ (p ++ x :: t).dropWhile P = x :: t := by
  intro p
  induction p with
  | nil =>
    intro _ x t hx
    constructor
    · simp [List.takeWhile_cons, hx]
    · simp [List.dropWhile_cons, hx]
  | cons c p ih =>
    intro hp x t hx
    have hc : P c = true := hp c (List.mem_cons_self c p)
    obtain ⟨h1, h2⟩ := ih (fun y hy => hp y (List.mem_cons_of_mem c hy)) x t hx
    constructor
    · simp only [List.cons_append, List.takeWhile_cons, hc, if_true, h1]
    · simp only [List.cons_append, List.dropWhile_cons, hc, if_true, h2]

theorem ddTry_dd_span (p t : List Char) (hne : p ≠ [])
    (hp : ∀ c ∈ p, c ≠ '$') :
    ddTry ('$' :: '$' :: (p ++ '$' :: '$' :: t)) = some (p, t) := by
  have hall : ∀ c ∈ p, (fun c => (c ≠ '$' : Bool)) c = true := by
    intro c hc
    simpa using hp c hc
  have hx : (fun c => (c ≠ '$' : Bool)) '$' = false := by simp
  obtain ⟨h1, h2⟩ :=
    takeWhile_all_append (fun c => (c ≠ '$' : Bool)) p hall '$' ('$' :: t) hx
  simp only [ddTry, h1, h2]
  cases p with
  | nil => exact absurd rfl hne
  | cons a q => simp

theorem subDD_dd_span (p t : List Char) (hne : p ≠ [])
    (hp : ∀ c ∈ p, c ≠ '$') :
    subDD ('$' :: '$' :: (p ++ '$' :: '$' :: t)) =
      '\\' :: '[' :: (p ++ '\\' :: ']' :: subDD t) := by
  have hdd : ddTry ('$' :: ('$' :: (p ++ '$' :: '$' :: t))) = some (p, t) :=
    ddTry_dd_span p t hne hp
  rw [subDD_cons_some '$' ('$' :: (p ++ '$' :: '$' :: t)) p t hdd,
    subDDAux_fuel ('$' :: (p ++ '$' :: '$' :: t)).length
      ('$' :: (p ++ '$' :: '$' :: t)).length t le_rfl
      (by simp only [List.length_cons, List.length_append]; omega)]

theorem subDD_single_keep (p X : List Char) (hne : p ≠ [])
    (hp : ∀ c ∈ p, c ≠ '$')
    (hX : X = [] ∨ ∃ c X2, X = c :: X2 ∧ c ≠ '$') :
    subDD ('$' :: (p ++ '$' :: X)) = '$' :: (p ++ '$' :: subDD X) := by
  match p, hp with
  | [], _ => exact absurd rfl hne
  | a :: q, hp =>
    have ha : a ≠ '$' := hp a (List.mem_cons_self a q)
    have h1 : ddTry ('$' :: ((a :: q) ++ '$' :: X)) = none := by
      rw [List.cons_append]
      exact ddTry_dollar_second_not a ha (q ++ '$' :: X)
    rw [subDD_cons_none '$' ((a :: q) ++ '$' :: X) h1,
      subDD_gap (a :: q) hp ('$' :: X)]
    have h2 : ddTry ('$' :: X) = none := by
      rcases hX with h | ⟨c, X2, hX2, hc⟩
      · rw [h]; rfl
      · rw [hX2]; exact ddTry_dollar_second_not c hc X2
    rw [subDD_cons_none '$' X h2]

theorem sepOK_cons (sp : MSpan) (g : List Char)
    (rest : List (MSpan × List Char)) (h : sepOK ((sp, g) :: rest) = true) :
    sepOK rest = true ∧ (rest ≠ [] → g ≠ []) := by
  cases rest with
  | nil => exact ⟨rfl, fun hr => absurd rfl hr⟩
  | cons y rs =>
    simp only [sepOK, Bool.and_eq_true, Bool.not_eq_true'] at h
    refine ⟨h.2, fun _ hg => ?_⟩
    rw [hg] at h
    simp at h

theorem subDD_renderM :
    ∀ (l : List (MSpan × List Char)) (g0 : List Char), dollarFree g0 = true →
      (∀ e ∈ l, spanOK e.1 = true ∧ dollarFree e.2 = true) →
      sepOK l = true →
      subDD (renderM g0 l) = renderMMid g0 l := by
  intro l
  induction l with
  | nil =>
    intro g0 hg0 _ _
    have h := subDD_gap g0 (dollarFree_props g0 hg0) []
    simpa [renderM, renderMMid, subDD, subDDAux] using h
  | cons e rest ih =>
    obtain ⟨sp, g⟩ := e
    intro g0 hg0 hl hsep
    obtain ⟨hsp, hgd⟩ := hl (sp, g) (List.mem_cons_self _ _)
    have hl2 : ∀ x ∈ rest, spanOK x.1 = true ∧ dollarFree x.2 = true :=
      fun x hx => hl x (List.mem_cons_of_mem _ hx)
    obtain ⟨hsepr, hgne⟩ := sepOK_cons sp g rest hsep
    cases sp with
    | double p =>
      have hpprops : p ≠ [] ∧ ∀ c ∈ p, c ≠ '$' := by
        simp only [spanOK, Bool.and_eq_true, Bool.not_eq_true'] at hsp
        refine ⟨?_, dollarFree_props p hsp.2⟩
        intro h0
        rw [h0] at hsp
        simp at hsp
      have hstep : renderM g0 ((MSpan.double p, g) :: rest) =
          g0 ++ ('$' :: '$' :: (p ++ '$' :: '$' :: renderM g rest)) := by
        simp [renderM, renderSpan, List.append_assoc]
      rw [hstep, subDD_gap g0 (dollarFree_props g0 hg0) _,
        subDD_dd_span p (renderM g rest) hpprops.1 hpprops.2,
        ih g hgd hl2 hsepr]
      simp [renderMMid, List.append_assoc]
    | single p =>
      have hpprops : p ≠ [] ∧ ∀ c ∈ p, c ≠ '$' := by
        simp only [spanOK, Bool.and_eq_true, Bool.not_eq_true'] at hsp
        constructor
        · intro h0
          rw [h0] at hsp
          simp at hsp
        · intro c hc
          have := List.all_eq_true.mp hsp.2 c hc
          simp only [Bool.and_eq_true, decide_eq_true_eq] at this
          exact this.1
      have hX : renderM g rest = [] ∨
          ∃ c X2, renderM g rest = c :: X2 ∧ c ≠ '$' := by
        cases rest with
        | nil =>
          cases g with
          | nil => exact Or.inl rfl
          | cons a gq =>
            exact Or.inr ⟨a, gq, rfl,
              dollarFree_props (a :: gq) hgd a (List.mem_cons_self a gq)⟩
        | cons r1 rs =>
          have hgne2 : g ≠ [] := hgne (by simp)
          obtain ⟨sp2, g2⟩ := r1
          cases g with
          | nil => exact absurd rfl hgne2
          | cons a gq =>
            refine Or.inr ⟨a, gq ++ renderSpan sp2 ++ renderM g2 rs, ?_,
              dollarFree_props (a :: gq) hgd a (List.mem_cons_self a gq)⟩
            simp [renderM, List.append_assoc]
      have hstep : renderM g0 ((MSpan.single p, g) :: rest) =
          g0 ++ ('$' :: (p ++ '$' :: renderM g rest)) := by
        simp [renderM, renderSpan, List.append_assoc]
      rw [hstep, subDD_gap g0 (dollarFree_props g0 hg0) _,
        subDD_single_keep p (renderM g rest) hpprops.1 hpprops.2 hX,
        ih g hgd hl2 hsepr]
      simp [renderMMid, List.append_assoc]

theorem sdTry_not_dollar (c : Char) (hc : c ≠ '$') (t : List Char) :
    sdTry (c :: t) = none := by
  unfold sdTry
  split
  · rename_i rest heq
    obtain ⟨hc2, _⟩ := List.cons.inj heq
    exact absurd hc2 hc
  · rfl

theorem sdTry_some_eq (s p r : List Char) (h : sdTry s = some (p, r)) :
    s = '$' :: (p ++ '$' :: r) := by
  unfold sdTry at h
  split at h
  · rename_i rest
    simp only [] at h
    split at h
    · exact Option.noConfusion h
    · split at h
      · rename_i r2 heq2
        simp only [Option.some.injEq, Prod.mk.injEq] at h
        obtain ⟨hp, hr⟩ := h
        have hrest : rest = p ++ '$' :: r := by
          conv_lhs => rw [← List.takeWhile_append_dropWhile
            (fun c => (c ≠ '$' && c ≠ '\n' : Bool)) rest]
          rw [hp, heq2, hr]
        rw [hrest]
      · exact Option.noConfusion h
  · exact Option.noConfusion h

theorem sdTry_some_length (s p r : List Char) (h : sdTry s = some (p, r)) :
    r.length + 2 ≤ s.length := by
  rw [sdTry_some_eq s p r h]
  simp only [List.length_cons, List.length_append]
  omega

theorem subSD_cons_none (c : Char) (t : List Char) (h : sdTry (c :: t) = none) :
    subSD (c :: t) = c :: subSD t := by
  simp only [subSD, List.length_cons, subSDAux, h]

theorem subSD_cons_some (c : Char) (t p r : List Char)
    (h : sdTry (c :: t) = some (p, r)) :
    subSD (c :: t) = '\\' :: '(' :: (p ++ '\\' :: ')' :: subSDAux t.length r) := by
  simp only [subSD, List.length_cons, subSDAux, h]

theorem subSDAux_fuel :
    ∀ (n f : Nat) (s : List Char), f ≤ n → s.length ≤ f →
      subSDAux f s = subSD s := by
  intro n
  induction n with
  | zero =>
    intro f s hf hs
    have hf0 : f = 0 := Nat.le_zero.mp hf
    subst hf0
    have hs0 : s = [] := List.eq_nil_of_length_eq_zero (Nat.le_zero.mp hs)
    subst hs0
    rfl
  | succ n ih =>
    intro f s hf hs
    cases f with
    | zero =>
      have hs0 : s = [] := List.eq_nil_of_length_eq_zero (Nat.le_zero.mp hs)
      subst hs0
      rfl
    | succ f =>
      cases s with
      | nil => rfl
      | cons c t =>
        simp only [List.length_cons] at hs
        cases hsd : sdTry (c :: t) with
        | none =>
          rw [show subSDAux (f + 1) (c :: t) = c :: subSDAux f t from by
            simp only [subSDAux, hsd]]
          rw [ih f t (by omega) (by omega), subSD_cons_none c t hsd]
        | some pr =>
          obtain ⟨p, r⟩ := pr
          have hlen := sdTry_some_length (c :: t) p r hsd
          simp only [List.length_cons] at hlen
          rw [show subSDAux (f + 1) (c :: t) =
            '\\' :: '(' :: (p ++ '\\' :: ')' :: subSDAux f r) from by
              simp only [subSDAux, hsd]]
          rw [ih f r (by omega) (by omega), subSD_cons_some c t p r hsd]
          rw [ih t.length r (by omega) (by omega)]

theorem subSD_gap :
    ∀ (g : List Char), (∀ c ∈ g, c ≠ '$') → ∀ t,
      subSD (g ++ t) = g ++ subSD t := by
  intro g
  induction g with
  | nil => intro _ t; rfl
  | cons c g ih =>
    intro hg t
    rw [List.cons_append,
      subSD_cons_none c (g ++ t)
        (sdTry_not_dollar c (hg c (List.mem_cons_self c g)) _),
      ih (fun x hx => hg x (List.mem_cons_of_mem c hx)) t]
    simp

theorem sdTry_span (p t : List Char) (hne : p ≠ [])
    (hp : ∀ c ∈ p, c ≠ '$' ∧ c ≠ '\n') :
    sdTry ('$' :: (p ++ '$' :: t)) = some (p, t) := by
  have hall : ∀ c ∈ p, (fun c => (c ≠ '$' && c ≠ '\n' : Bool)) c = true := by
    intro c hc
    obtain ⟨h1, h2⟩ := hp c hc
    simp [h1, h2]
  have hx : (fun c => (c ≠ '$' && c ≠ '\n' : Bool)) '$' = false := by simp
  obtain ⟨h1, h2⟩ :=
    takeWhile_all_append (fun c => (c ≠ '$' && c ≠ '\n' : Bool)) p hall '$' t hx
  simp only [sdTry, h1, h2]
  cases p with
  | nil => exact absurd rfl hne
  | cons a q => simp

theorem subSD_sd_span (p t : List Char) (hne : p ≠ [])
    (hp : ∀ c ∈ p, c ≠ '$' ∧ c ≠ '\n') :
    subSD ('$' :: (p ++ '$' :: t)) = '\\' :: '(' :: (p ++ '\\' :: ')' :: subSD t) := by
  have hsd : sdTry ('$' :: (p ++ '$' :: t)) = some (p, t) := sdTry_span p t hne hp
  rw [subSD_cons_some '$' (p ++ '$' :: t) p t hsd,
    subSDAux_fuel (p ++ '$' :: t).length (p ++ '$' :: t).length t le_rfl
      (by simp only [List.length_cons, List.length_append]; omega)]

theorem subSD_renderMMid :
    ∀ (l : List (MSpan × List Char)) (g0 : List Char), dollarFree g0 = true →
      (∀ e ∈ l, spanOK e.1 = true ∧ dollarFree e.2 = true) →
      subSD (renderMMid g0 l) = renderMOut g0 l := by
  intro l
  induction l with
  | nil =>
    intro g0 hg0 _
    have h := subSD_gap g0 (dollarFree_props g0 hg0) []
    simpa [renderMMid, renderMOut, subSD, subSDAux] using h
  | cons e rest ih =>
    obtain ⟨sp, g⟩ := e
    intro g0 hg0 hl
    obtain ⟨hsp, hgd⟩ := hl (sp, g) (List.mem_cons_self _ _)
    have hl2 : ∀ x ∈ rest, spanOK x.1 = true ∧ dollarFree x.2 = true :=
      fun x hx => hl x (List.mem_cons_of_mem _ hx)
    cases sp with
    | single p =>
      have hpprops : p ≠ [] ∧ ∀ c ∈ p, c ≠ '$' ∧ c ≠ '\n' := by
        simp only [spanOK, Bool.and_eq_true, Bool.not_eq_true'] at hsp
        constructor
        · intro h0
          rw [h0] at hsp
          simp at hsp
        · intro c hc
          have := List.all_eq_true.mp hsp.2 c hc
          simp only [Bool.and_eq_true, decide_eq_true_eq] at this
          exact this
      have hstep : renderMMid g0 ((MSpan.single p, g) :: rest) =
          g0 ++ ('$' :: (p ++ '$' :: renderMMid g rest)) := by
        simp [renderMMid, List.append_assoc]
      rw [hstep, subSD_gap g0 (dollarFree_props g0 hg0) _,
        subSD_sd_span p (renderMMid g rest) hpprops.1 hpprops.2,
        ih g hgd hl2]
      simp [renderMOut, List.append_assoc]
    | double p =>
      have hpd : ∀ c ∈ p, c ≠ '$' := by
        simp only [spanOK, Bool.and_eq_true] at hsp
        exact dollarFree_props p hsp.2
      have hstep : renderMMid g0 ((MSpan.double p, g) :: rest) =
          (g0 ++ '\\' :: '[' :: (p ++ ['\\', ']'])) ++ renderMMid g rest := by
        simp [renderMMid, List.append_assoc]
      have hrun : ∀ c ∈ g0 ++ '\\' :: '[' :: (p ++ ['\\', ']']), c ≠ '$' := by
        intro c hc
        simp only [List.mem_append, List.mem_cons, List.not_mem_nil,
          or_false] at hc
        rcases hc with hc | hc | hc | hc | hc | hc
        · exact dollarFree_props g0 hg0 c hc
        · subst hc; decide
        · subst hc; decide
        · exact hpd c hc
        · subst hc; decide
        · subst hc; decide
      rw [hstep, subSD_gap _ hrun _, ih g hgd hl2]
      simp [renderMOut, List.append_assoc]

theorem renderMOut_dollarFree :
    ∀ (l : List (MSpan × List Char)) (g0 : List Char), dollarFree g0 = true →
      (∀ e ∈ l, spanOK e.1 = true ∧ dollarFree e.2 = true) →
      dollarFree (renderMOut g0 l) = true := by
  intro l
  induction l with
  | nil =>
    intro g0 hg0 _
    simpa [renderMOut] using hg0
  | cons e rest ih =>
    obtain ⟨sp, g⟩ := e
    intro g0 hg0 hl
    obtain ⟨hsp, hgd⟩ := hl (sp, g) (List.mem_cons_self _ _)
    have hrest := ih g hgd (fun x hx => hl x (List.mem_cons_of_mem _ hx))
    have hg0p := dollarFree_props g0 hg0
    have hrp := dollarFree_props _ hrest
    cases sp with
    | single p =>
      have hpd : ∀ c ∈ p, c ≠ '$' := by
        intro c hc
        simp only [spanOK, Bool.and_eq_true] at hsp
        have := List.all_eq_true.mp hsp.2 c hc
        simp only [Bool.and_eq_true, decide_eq_true_eq] at this
        exact this.1
      refine List.all_eq_true.mpr ?_
      intro c hc
      simp only [renderMOut, List.mem_append, List.mem_cons,
        List.not_mem_nil, or_false] at hc
      have hcd : c ≠ '$' := by
        rcases hc with (hc | hc | hc | hc | hc | hc) | hc
        · exact hg0p c hc
        · subst hc; decide
        · subst hc; decide
        · exact hpd c hc
        · subst hc; decide
        · subst hc; decide
        · exact hrp c hc
      simpa using hcd
    | double p =>
      have hpd : ∀ c ∈ p, c ≠ '$' := by
        simp only [spanOK, Bool.and_eq_true] at hsp
        exact dollarFree_props p hsp.2
      refine List.all_eq_true.mpr ?_
      intro c hc
      simp only [renderMOut, List.mem_append, List.mem_cons,
        List.not_mem_nil, or_false] at hc
      have hcd : c ≠ '$' := by
        rcases hc with (hc | hc | hc | hc | hc | hc) | hc
        · exact hg0p c hc
        · subst hc; decide
        · subst hc; decide
        · exact hpd c hc
        · subst hc; decide
        · subst hc; decide
        · exact hrp c hc
      simpa using hcd

/-- Claim C6 (amended): on a text whose dollars occur only as well-formed
terminated spans — non-empty dollar-free payloads (newline-free for inline
spans), dollar-free gaps — with a non-empty gap between any two consecutive
spans, the conversion rewrites every display span to bracket form and every
inline span to parenthesis form, and the output contains no dollar sign at
all.  The non-empty-separation side condition is necessary: with an empty gap
between two spans the closing and opening dollars pair up into a spurious
display match and a dollar pair survives in the output (see the
counterexample). -/
theorem C6_mathjax_amended (g0 : List Char) (l : List (MSpan × List Char))
    (hg0 : dollarFree g0 = true)
    (hl : ∀ e ∈ l, spanOK e.1 = true ∧ dollarFree e.2 = true)
    (hsep : sepOK l = true) :
    convert_to_anki_mathjax (renderM g0 l) = renderMOut g0 l ∧
    dollarFree (renderMOut g0 l) = true := by
  constructor
  · rw [show convert_to_anki_mathjax (renderM g0 l) =
      subSD (subDD (renderM g0 l)) from rfl,
      subDD_renderM l g0 hg0 hl hsep, subSD_renderMMid l g0 hg0 hl]
  · exact renderMOut_dollarFree l g0 hg0 hl

/-- Hypotheses of the C6 amended-claim witness hold at the concrete
structured input rendering to `E $$x$$ $y$`, and the conclusion follows by
applying the theorem there. -/
theorem C6_mathjax_amended_witness :
    ((∀ e ∈ [(MSpan.double ['x'], [' ']), (MSpan.single ['y'], ([] : List Char))],
        spanOK e.1 = true ∧ dollarFree e.2 = true) ∧
      sepOK [(MSpan.double ['x'], [' ']), (MSpan.single ['y'], ([] : List Char))] = true) ∧
    (convert_to_anki_mathjax (renderM ['E', ' ']
        [(MSpan.double ['x'], [' ']), (MSpan.single ['y'], ([] : List Char))]) =
      renderMOut ['E', ' ']
        [(MSpan.double ['x'], [' ']), (MSpan.single ['y'], ([] : List Char))] ∧
    dollarFree (renderMOut ['E', ' ']
        [(MSpan.double ['x'], [' ']), (MSpan.single ['y'], ([] : List Char))]) = true) :=
  ⟨⟨by decide, by decide⟩,
    C6_mathjax_amended ['E', ' ']
      [(MSpan.double ['x'], [' ']), (MSpan.single ['y'], ([] : List Char))]
      (by decide) (by decide) (by decide)⟩

end MCPLearning
